import Mathlib

/-!
# Statistics library (`stats.cpp`, `p1_library.cpp`)

A shallow embedding of the statistics functions of
`system-tests/stress-submission-files/stats.cpp` and of `sort` from
`system-tests/stress-project-files/p1_library.cpp`.

Modelling conventions.

* A `std::vector<double>` is a `List ℚ`: the arithmetic is exact, so the
  theorems on these functions are about the real-number semantics of the code,
  not about IEEE rounding.  The one operation that leaves `ℚ`, `sqrt`, is taken
  in `ℝ`.  The namespace `Float64` holds the functions whose result depends on
  rounding or overflow again, with the arithmetic of `double`.
* A call yields `Except Failure α`.  `Failure.assertion` is a failed
  `assert`; `Failure.outOfRange` is a subscript outside `0 .. size-1`;
  `Failure.nonFinite` is a floating-point operation without a real value
  (a division by zero, the square root of a negative number).  In the last
  case the C++ call still returns (a NaN or an infinity): it is no assertion
  failure.
* `int` counters and `size_t` sizes are natural numbers: a loop
  `for (int i = 0; i < int(v.size()); ++i)` is a recursion over the elements
  of the list, in order.
* `cout << value << ": " << count << "\n"` appends the pair `(value, count)`
  to the list of lines printed so far.
-/

namespace Stats

/-- The ways in which a call does not return a real number. -/
inductive Failure where
  | assertion
  | outOfRange
  | nonFinite
  deriving DecidableEq, Repr

/-- The outcome of a call: a failure or the returned value. -/
abbrev Result (α : Type) : Type := Except Failure α

/-- Decidable equality of outcomes, so that closed instances can be evaluated. -/
instance instDecidableEqResult {α : Type} [DecidableEq α] : DecidableEq (Result α)
  | .ok a, .ok b =>
      if h : a = b then isTrue (by rw [h]) else isFalse (fun e => h (Except.ok.inj e))
  | .error a, .error b =>
      if h : a = b then isTrue (by rw [h]) else isFalse (fun e => h (Except.error.inj e))
  | .ok _, .error _ => isFalse (fun e => Except.noConfusion e)
  | .error _, .ok _ => isFalse (fun e => Except.noConfusion e)

/-! ## `p1_library.cpp` -/

/-- The function `sort` of `p1_library.cpp`: `std::sort(v.begin(), v.end())`,
the ascending rearrangement of `v`. -/
def sort (v : List ℚ) : List ℚ :=
  v.insertionSort (· ≤ ·)

/-! ## Primitive operations -/

/-- The subscript `v[i]` of a vector, for an index computed as an integer. -/
def subscript (v : List ℚ) (i : Int) : Result ℚ :=
  if 0 ≤ i then
    match v[i.toNat]? with
    | some x => .ok x
    | none => .error .outOfRange
  else .error .outOfRange

/-- Floating-point division `a / b`. -/
def divide (a b : ℚ) : Result ℚ :=
  if b = 0 then .error .nonFinite else .ok (a / b)

/-- The call `d = modf(n, &k)`: the pair `(d, k)` of the fractional part and the
integral part of `n`, the integral part being `n` rounded towards zero. -/
def modf (n : ℚ) : ℚ × Int :=
  let k : Int := if 0 ≤ n then ⌊n⌋ else ⌈n⌉
  (n - k, k)

/-! ## `stats.cpp` -/

/-- The loop of `summarize` over `v[1], v[2], ...`: the state is the current
`value`, its `count` and the lines printed so far. -/
def summarizeLoop : List ℚ → ℚ → Nat → List (ℚ × Nat) → ℚ × Nat × List (ℚ × Nat)
  | [], value, count, out => (value, count, out)
  | x :: rest, value, count, out =>
      if x ≠ value then summarizeLoop rest x (0 + 1) (out ++ [(value, count)])
      else summarizeLoop rest value (count + 1) out

/-- The function `summarize`: the lines `value: count` written to standard output. -/
def summarize (v : List ℚ) : Result (List (ℚ × Nat)) :=
  if v.isEmpty then .error .assertion
  else
    match sort v with
    | [] => .error .outOfRange
    | v0 :: rest =>
        let (value, count, out) := summarizeLoop rest v0 1 []
        .ok (out ++ [(value, count)])

/-- The function `count`. -/
def count (v : List ℚ) : Int :=
  v.length

/-- The function `sum`. -/
def sum (v : List ℚ) : Result ℚ :=
  if v.isEmpty then .error .assertion
  else .ok (v.foldl (fun sum x => sum + x) 0)

/-- The function `mean`. -/
def mean (v : List ℚ) : Result ℚ :=
  if v.isEmpty then .error .assertion
  else do
    let s ← sum v
    divide s (v.length : ℚ)

/-- The inner loop of `mode` over `v[i+1], v[i+2], ...`: the number of copies of
`x = v[i]` met before the first element different from `x`. -/
def modeInner (x : ℚ) : List ℚ → Nat → Nat
  | [], count => count
  | y :: rest, count => if x ≠ y then count else modeInner x rest (count + 1)

/-- The outer loop of `mode` over `v[i], v[i+1], ...`: the state is
`(mode_index, mode_count)`. -/
def modeLoop : List ℚ → Nat → Nat → Nat → Nat × Nat
  | [], _, mode_index, mode_count => (mode_index, mode_count)
  | x :: rest, i, mode_index, mode_count =>
      let count := modeInner x rest 0
      if count > mode_count then modeLoop rest (i + 1) i count
      else modeLoop rest (i + 1) mode_index mode_count

/-- The function `mode`. -/
def mode (v : List ℚ) : Result ℚ :=
  if v.isEmpty then .error .assertion
  else
    let s := sort v
    subscript s ((modeLoop s 0 0 0).1 : Int)

/-- The function `min`. -/
def min (v : List ℚ) : Result ℚ :=
  if v.isEmpty then .error .assertion
  else do
    let v0 ← subscript v 0
    pure (v.foldl (fun min x => if x < min then x else min) v0)

/-- The function `max`. -/
def max (v : List ℚ) : Result ℚ :=
  if v.isEmpty then .error .assertion
  else do
    let v0 ← subscript v 0
    pure (v.foldl (fun max x => if x > max then x else max) v0)

/-- The value of `tmp` in `stdev` after `tmp = tmp / (v.size() - 1)`, that is
just before the square root is taken. -/
def stdevTmp (v : List ℚ) : Result ℚ :=
  if v.isEmpty then .error .assertion
  else do
    let u ← mean v
    let tmp := v.foldl (fun tmp x => tmp + (x - u) * (x - u)) 0
    divide tmp ((v.length - 1 : Nat) : ℚ)

/-- The call `sqrt(x)` of `<cmath>`. -/
noncomputable def sqrt (x : ℚ) : Result ℝ :=
  if x < 0 then .error .nonFinite else .ok (Real.sqrt (x : ℝ))

/-- The function `stdev`. -/
noncomputable def stdev (v : List ℚ) : Result ℝ := do
  let tmp ← stdevTmp v
  sqrt tmp

/-- The function `percentile`. -/
def percentile (v : List ℚ) (p : ℚ) : Result ℚ :=
  if v.isEmpty then .error .assertion
  else if ¬ (p ≥ 0 ∧ p ≤ 1) then .error .assertion
  else
    let s := sort v
    let n : ℚ := p * ((s.length - 1 : Nat) : ℚ) + 1
    let (d, k) := modf n
    if n = 0 then subscript s 0
    else if n = (s.length : ℚ) then subscript s ((s.length - 1 : Nat) : Int)
    else do
      let lo ← subscript s (k - 1)
      let hi ← subscript s k
      let lo2 ← subscript s (k - 1)
      pure (lo + d * (hi - lo2))

/-- The function `median`. -/
def median (v : List ℚ) : Result ℚ :=
  if v.isEmpty then .error .assertion
  else percentile v (1 / 2)

/-! ## `extract_column` of `p1_library.cpp`

The file is given by its lines, `none` when it cannot be opened.  An
`istringstream` is the list of the characters not yet read, with a flag that
is true as long as neither `eofbit` nor `failbit` is set.  The two read
operations follow the standard library: a read on a stream that is not good
fails and leaves the string untouched; the string is erased only once the
read has started.  The conversion of a token to `double` is a parameter.
A loop that reads from a stream is given the length of the line plus one as
its bound, each successful read consuming at least one character. -/

/-- The predicate `isspace` of the "C" locale. -/
def isspace (c : Char) : Bool :=
  c = ' ' ∨ c = '\t' ∨ c = '\n' ∨ c = '\x0b' ∨ c = '\x0c' ∨ c = '\r'

/-- An `istringstream`. -/
structure IStringStream where
  /-- the characters not yet read -/
  buf : List Char
  /-- no state bit is set -/
  good : Bool
  deriving DecidableEq, Repr

/-- The read `iss >> token` of a string: whether it succeeds, the string and
the stream after it. -/
def extractString (iss : IStringStream) (token : List Char) :
    Bool × List Char × IStringStream :=
  if iss.good then
    match iss.buf.dropWhile isspace with
    | [] => (false, token, ⟨[], false⟩)
    | c :: rest =>
        let after := (c :: rest).dropWhile (fun x => !isspace x)
        (true, (c :: rest).takeWhile (fun x => !isspace x), ⟨after, !after.isEmpty⟩)
  else (false, token, iss)

/-- The read `getline(iss, token, delim)`: whether it succeeds, the string and
the stream after it. -/
def getline (iss : IStringStream) (token : List Char) (delim : Char) :
    Bool × List Char × IStringStream :=
  if iss.good then
    match iss.buf.dropWhile (fun x => x != delim) with
    | [] =>
        (!(iss.buf.takeWhile (fun x => x != delim)).isEmpty,
          iss.buf.takeWhile (fun x => x != delim), ⟨[], false⟩)
    | _ :: rest => (true, iss.buf.takeWhile (fun x => x != delim), ⟨rest, true⟩)
  else (false, token, iss)

/-- The diagnostics with which `extract_column` calls `exit(1)`. -/
inductive Diagnostic where
  | errorOpening
  | errorReading
  | columnNotFound
  deriving DecidableEq, Repr

/-- What a call of `extract_column` does: it exits with a diagnostic, or it
returns `column_data` after printing a warning for each of the line numbers. -/
inductive Extraction where
  | exited (diagnostic : Diagnostic)
  | returned (column_data : List ℚ) (warnings : List Nat)
  deriving DecidableEq, Repr

/-- The loop of `extract_column` that searches the header for `column_name`:
the state is `(token, column_index)`. -/
def headerLoop (column_name : List Char) :
    Nat → IStringStream → List Char → Nat → List Char × Nat
  | 0, _, token, column_index => (token, column_index)
  | fuel + 1, iss, token, column_index =>
      match extractString iss token with
      | (false, token, _) => (token, column_index)
      | (true, token, iss) =>
          if token = column_name then (token, column_index)
          else headerLoop column_name fuel iss token (column_index + 1)

/-- The loop of `extract_column` that reads the tokens of a data row up to the
one at `column_index`: the state is `(i, token)`. -/
def rowLoop (column_index : Nat) : Nat → IStringStream → List Char → Nat → Nat × List Char
  | 0, _, token, i => (i, token)
  | fuel + 1, iss, token, i =>
      match getline iss token '\t' with
      | (false, token, _) => (i, token)
      | (true, token, iss) =>
          if i = column_index then (i, token)
          else rowLoop column_index fuel iss token (i + 1)

/-- The loop of `extract_column` over the data rows: the state is
`column_data`, the warnings printed and `line_no`. -/
def dataLoop (toDouble : List Char → ℚ) (column_index : Nat) :
    List (List Char) → List ℚ → List Nat → Nat → List ℚ × List Nat
  | [], column_data, warnings, _ => (column_data, warnings)
  | line :: rest, column_data, warnings, line_no =>
      if (rowLoop column_index (line.length + 1) ⟨line, true⟩ [] 0).1 = column_index then
        dataLoop toDouble column_index rest
          (column_data ++ [toDouble (rowLoop column_index (line.length + 1) ⟨line, true⟩ [] 0).2])
          warnings (line_no + 1)
      else
        dataLoop toDouble column_index rest column_data (warnings ++ [line_no]) (line_no + 1)

/-- The function `extract_column`. -/
def extract_column (toDouble : List Char → ℚ) (file : Option (List (List Char)))
    (column_name : List Char) : Extraction :=
  match file with
  | none => .exited .errorOpening
  | some [] => .exited .errorReading
  | some (line :: rows) =>
      if (headerLoop column_name (line.length + 1) ⟨line, true⟩ [] 0).1 ≠ column_name then
        .exited .columnNotFound
      else
        .returned
          (dataLoop toDouble (headerLoop column_name (line.length + 1) ⟨line, true⟩ [] 0).2
            rows [] [] 2).1
          (dataLoop toDouble (headerLoop column_name (line.length + 1) ⟨line, true⟩ [] 0).2
            rows [] [] 2).2

/-! ## Vector objects

To follow what a call does to the vector of its caller, a vector object is
named by a natural number and a store gives the contents of every object.  A
parameter `std::vector<double> v` is an object of its own, copy-constructed
from the argument when the call starts; a parameter `std::vector<double> &v`
is the argument object itself.  The functions below are the bodies of
`stats.cpp` run on the parameter object `v`: they return the result together
with the store in which they end. -/

/-- The contents of the vector objects. -/
abbrev Store : Type := Nat → List ℚ

/-- The store after an assignment to the object `a`. -/
def assign (σ : Store) (a : Nat) (x : List ℚ) : Store :=
  fun b => if b = a then x else σ b

/-- The call `sort(v)` of `p1_library.cpp`, where the reference `v` names the
object `a`: the object is sorted in place. -/
def sortRef (σ : Store) (a : Nat) : Store :=
  assign σ a (sort (σ a))

/-- The start of a call with a by-value parameter: the parameter object `v` is
copy-constructed from the argument object `arg`. -/
def copyConstruct (σ : Store) (arg v : Nat) : Store :=
  assign σ v (σ arg)

/-- The body of `summarize` on the parameter object `v`. -/
def summarizeOn (σ : Store) (v : Nat) : Result (List (ℚ × Nat)) × Store :=
  if (σ v).isEmpty then (.error .assertion, σ)
  else
    match (sortRef σ v) v with
    | [] => (.error .outOfRange, sortRef σ v)
    | v0 :: rest =>
        let (value, count, out) := summarizeLoop rest v0 1 []
        (.ok (out ++ [(value, count)]), sortRef σ v)

/-- The body of `mode` on the parameter object `v`. -/
def modeOn (σ : Store) (v : Nat) : Result ℚ × Store :=
  if (σ v).isEmpty then (.error .assertion, σ)
  else
    (subscript ((sortRef σ v) v) ((modeLoop ((sortRef σ v) v) 0 0 0).1 : Int), sortRef σ v)

/-- The body of `percentile` on the parameter object `v`. -/
def percentileOn (σ : Store) (v : Nat) (p : ℚ) : Result ℚ × Store :=
  if (σ v).isEmpty then (.error .assertion, σ)
  else if ¬ (p ≥ 0 ∧ p ≤ 1) then (.error .assertion, σ)
  else
    let s := (sortRef σ v) v
    let n : ℚ := p * ((s.length - 1 : Nat) : ℚ) + 1
    let (d, k) := modf n
    if n = 0 then (subscript s 0, sortRef σ v)
    else if n = (s.length : ℚ) then (subscript s ((s.length - 1 : Nat) : Int), sortRef σ v)
    else
      ((do
        let lo ← subscript s (k - 1)
        let hi ← subscript s k
        let lo2 ← subscript s (k - 1)
        pure (lo + d * (hi - lo2))), sortRef σ v)

/-- The body of `median` on the parameter object `v`; the call of `percentile`
in it has the parameter object `w`. -/
def medianOn (σ : Store) (v w : Nat) : Result ℚ × Store :=
  if (σ v).isEmpty then (.error .assertion, σ)
  else percentileOn (copyConstruct σ v w) w (1 / 2)

/-- The body of a function that only reads its parameter object `v`: `count`,
`sum`, `mean`, `min`, `max` and `stdev` have no assignment to `v` and pass it
to no reference parameter. -/
def readOnlyOn {α : Type} (f : List ℚ → α) (σ : Store) (v : Nat) : α × Store :=
  (f (σ v), σ)

/-! ## Derived quantities of the loops -/

/-- The value of `count` in `mode` when the inner loop of iteration `j` ends, on
the vector `l`. -/
def modeCountAt (l : List ℚ) (j : Nat) : Nat :=
  match l.drop j with
  | [] => 0
  | x :: rest => modeInner x rest 0

/-- Everything `summarize` has printed when it returns, for a loop started in
the given state: the lines of the loop and the line printed after it. -/
def summarizeOutput (rest : List ℚ) (value : ℚ) (count : Nat) (out : List (ℚ × Nat)) :
    List (ℚ × Nat) :=
  (summarizeLoop rest value count out).2.2 ++
    [((summarizeLoop rest value count out).1, (summarizeLoop rest value count out).2.1)]

/-- The tokens that successive reads `iss >> token` deliver. -/
def headerTokens : Nat → IStringStream → List (List Char)
  | 0, _ => []
  | fuel + 1, iss =>
      match extractString iss [] with
      | (false, _, _) => []
      | (true, token, iss) => token :: headerTokens fuel iss

/-- The tokens that successive reads `getline(iss, token, '\t')` deliver. -/
def rowTokens : Nat → IStringStream → List (List Char)
  | 0, _ => []
  | fuel + 1, iss =>
      match getline iss [] '\t' with
      | (false, _, _) => []
      | (true, token, iss) => token :: rowTokens fuel iss

/-! ## Double arithmetic

The functions above compute with exact rationals.  The functions of this
section are the same functions of `stats.cpp` with the arithmetic of the type
`double` (IEEE 754 binary64, round to nearest, ties to even): every operation
returns the `double` nearest to the exact result, an infinity when that
overflows, and a NaN when it has no value.  Every operation is rounded by
itself to `double`: no intermediate result is kept in a wider format and no
product is fused with a sum.  The two zeros are not distinguished.  They show
what the code returns where rounding or overflow matters. -/

namespace Float64

/-- A value of type `double`. -/
inductive Double where
  | finite (x : ℚ)
  | posInf
  | negInf
  | nan
  deriving DecidableEq, Repr

/-- The power `2^e` for an integer `e`. -/
def pow2 (e : Int) : ℚ :=
  if 0 ≤ e then ((2 ^ e.toNat : Nat) : ℚ) else 1 / ((2 ^ (-e).toNat : Nat) : ℚ)

/-- The number of halvings that bring `n` below 2, at most `fuel` of them. -/
def halvings : Nat → Nat → Nat
  | 0, _ => 0
  | fuel + 1, n => if n < 2 then 0 else halvings fuel (n / 2) + 1

/-- The binary logarithm of `n ≥ 1`, rounded down. -/
def log2 (n : Nat) : Nat :=
  halvings n n

/-- The binary exponent of `a > 0`: the `e` with `2^e ≤ a < 2^(e+1)`. -/
def exponent (a : ℚ) : Int :=
  if a < pow2 ((log2 a.num.natAbs : Int) - (log2 a.den : Int)) then
    (log2 a.num.natAbs : Int) - (log2 a.den : Int) - 1
  else (log2 a.num.natAbs : Int) - (log2 a.den : Int)

/-- The integer nearest to `m ≥ 0`, the even one of the two when `m` is half-way. -/
def roundHalfEven (m : ℚ) : Int :=
  if m - (⌊m⌋ : ℚ) < 1 / 2 then ⌊m⌋
  else if m - (⌊m⌋ : ℚ) > 1 / 2 then ⌊m⌋ + 1
  else if ⌊m⌋ % 2 = 0 then ⌊m⌋ else ⌊m⌋ + 1

/-- The `double` nearest to the real number `x`: `x` is rounded to a multiple of
`2^(e-52)`, where `e` is its binary exponent and at least `-1022`; a result of
`2^1024` or more is an infinity.  A decimal literal denotes the `double`
nearest to it. -/
def nearest (x : ℚ) : Double :=
  if x = 0 then .finite 0
  else
    let e : Int := if exponent |x| < -1022 then -1022 else exponent |x|
    let y : ℚ := (roundHalfEven (|x| / pow2 (e - 52)) : ℚ) * pow2 (e - 52)
    if y ≥ pow2 1024 then (if x < 0 then .negInf else .posInf)
    else .finite (if x < 0 then -y else y)

/-- Whether a `double` is below zero. -/
def isNegative : Double → Bool
  | .finite x => decide (x < 0)
  | .negInf => true
  | _ => false

/-- The infinity of the given sign. -/
def infinity (negative : Bool) : Double :=
  if negative then .negInf else .posInf

/-- The operation `-a`. -/
def neg : Double → Double
  | .finite x => .finite (-x)
  | .posInf => .negInf
  | .negInf => .posInf
  | .nan => .nan

/-- The operation `a + b`. -/
def add : Double → Double → Double
  | .nan, _ => .nan
  | _, .nan => .nan
  | .finite x, .finite y => nearest (x + y)
  | .posInf, .negInf => .nan
  | .negInf, .posInf => .nan
  | .posInf, _ => .posInf
  | .negInf, _ => .negInf
  | _, .posInf => .posInf
  | _, .negInf => .negInf

/-- The operation `a - b`. -/
def sub (a b : Double) : Double :=
  add a (neg b)

/-- The operation `a * b`. -/
def mul : Double → Double → Double
  | .nan, _ => .nan
  | _, .nan => .nan
  | .finite x, .finite y => nearest (x * y)
  | .finite x, b => if x = 0 then .nan else infinity (decide (x < 0) != isNegative b)
  | a, .finite y => if y = 0 then .nan else infinity (isNegative a != decide (y < 0))
  | a, b => infinity (isNegative a != isNegative b)

/-- The operation `a / b`. -/
def div : Double → Double → Double
  | .nan, _ => .nan
  | _, .nan => .nan
  | .finite x, .finite y =>
      if y = 0 then (if x = 0 then .nan else infinity (decide (x < 0))) else nearest (x / y)
  | .finite _, _ => .finite 0
  | a, .finite y => infinity (isNegative a != decide (y < 0))
  | _, _ => .nan

/-- The comparison `a < b`. -/
def lt : Double → Double → Bool
  | .nan, _ => false
  | _, .nan => false
  | .finite x, .finite y => decide (x < y)
  | .negInf, .negInf => false
  | .negInf, _ => true
  | _, .negInf => false
  | .posInf, _ => false
  | _, .posInf => true

/-- The comparison `a == b`. -/
def eq : Double → Double → Bool
  | .nan, _ => false
  | _, .nan => false
  | a, b => decide (a = b)

/-- The comparison `a <= b`. -/
def le (a b : Double) : Bool :=
  lt a b || eq a b

/-- The conversion of a size to `double`. -/
def ofSize (n : Nat) : Double :=
  nearest (n : ℚ)

/-- The call `d = modf(n, &k)`: the pair `(d, k)`. -/
def modf : Double → Double × Double
  | .finite x =>
      (.finite (x - ((if 0 ≤ x then ⌊x⌋ else ⌈x⌉ : Int) : ℚ)),
        .finite ((if 0 ≤ x then ⌊x⌋ else ⌈x⌉ : Int) : ℚ))
  | .posInf => (.finite 0, .posInf)
  | .negInf => (.finite 0, .negInf)
  | .nan => (.nan, .nan)

/-- The bits of the integer square root, from bit `i - 1` down to bit 0. -/
def isqrtLoop (n : Nat) : Nat → Nat → Nat
  | 0, r => r
  | i + 1, r =>
      if (r + 2 ^ i) * (r + 2 ^ i) ≤ n then isqrtLoop n i (r + 2 ^ i) else isqrtLoop n i r

/-- The square root of a natural number, rounded down. -/
def isqrt (n : Nat) : Nat :=
  isqrtLoop n (log2 n / 2 + 1) 0

/-- The call `sqrt(a)`, correctly rounded.  For a `double` `x ≥ 0` the number
`x * 2^2400` is an integer, and with `t` the integer part of its square root
the exact root is `t / 2^1200` or lies strictly between `t / 2^1200` and
`(t + 1) / 2^1200`; no two `double`s have their midpoint strictly between
these, so the root rounds as `(t + 1/2) / 2^1200` does. -/
def sqrt : Double → Double
  | .nan => .nan
  | .negInf => .nan
  | .posInf => .posInf
  | .finite x =>
      if x < 0 then .nan
      else if ((isqrt ⌊x * pow2 2400⌋.toNat : Nat) : ℚ) * ((isqrt ⌊x * pow2 2400⌋.toNat : Nat) : ℚ)
          = x * pow2 2400 then
        nearest (((isqrt ⌊x * pow2 2400⌋.toNat : Nat) : ℚ) / pow2 1200)
      else nearest ((((isqrt ⌊x * pow2 2400⌋.toNat : Nat) : ℚ) + 1 / 2) / pow2 1200)

/-- The call `sort(v)`: `std::sort` with the comparison `<` of `double`. -/
def sort (v : List Double) : List Double :=
  v.insertionSort (fun a b => lt b a = false)

/-- The subscript `v[i]` for an index of type `size_t`. -/
def subscript (v : List Double) (i : Nat) : Result Double :=
  match v[i]? with
  | some x => .ok x
  | none => .error .outOfRange

/-- The subscript `v[k]` for an index computed as a `double`, which is
converted to `size_t` by dropping its fraction. -/
def subscriptDouble (v : List Double) : Double → Result Double
  | .finite x =>
      if 0 ≤ (if 0 ≤ x then ⌊x⌋ else ⌈x⌉ : Int) then
        subscript v (if 0 ≤ x then ⌊x⌋ else ⌈x⌉ : Int).toNat
      else .error .outOfRange
  | _ => .error .outOfRange

/-- The function `sum` in double arithmetic. -/
def sum (v : List Double) : Result Double :=
  if v.isEmpty then .error .assertion
  else .ok (v.foldl (fun sum x => add sum x) (.finite 0))

/-- The function `mean` in double arithmetic. -/
def mean (v : List Double) : Result Double :=
  if v.isEmpty then .error .assertion
  else do
    let s ← sum v
    pure (div s (ofSize v.length))

/-- The function `min` in double arithmetic. -/
def min (v : List Double) : Result Double :=
  if v.isEmpty then .error .assertion
  else do
    let v0 ← subscript v 0
    pure (v.foldl (fun min x => if lt x min then x else min) v0)

/-- The function `max` in double arithmetic. -/
def max (v : List Double) : Result Double :=
  if v.isEmpty then .error .assertion
  else do
    let v0 ← subscript v 0
    pure (v.foldl (fun max x => if lt max x then x else max) v0)

/-- The function `stdev` in double arithmetic. -/
def stdev (v : List Double) : Result Double :=
  if v.isEmpty then .error .assertion
  else do
    let u ← mean v
    pure (sqrt (div (v.foldl (fun tmp x => add tmp (mul (sub x u) (sub x u))) (.finite 0))
      (ofSize (v.length - 1))))

/-- The function `percentile` in double arithmetic. -/
def percentile (v : List Double) (p : Double) : Result Double :=
  if v.isEmpty then .error .assertion
  else if ¬ (le (.finite 0) p && le p (.finite 1)) then .error .assertion
  else
    let s := sort v
    let n : Double := add (mul p (ofSize (s.length - 1))) (.finite 1)
    let (d, k) := modf n
    if eq n (.finite 0) then subscript s 0
    else if eq n (ofSize s.length) then subscript s (s.length - 1)
    else do
      let lo ← subscriptDouble s (sub k (.finite 1))
      let hi ← subscriptDouble s k
      let lo2 ← subscriptDouble s (sub k (.finite 1))
      pure (add lo (mul d (sub hi lo2)))

/-- The function `median` in double arithmetic. -/
def median (v : List Double) : Result Double :=
  if v.isEmpty then .error .assertion
  else percentile v (nearest (1 / 2))

/-- The literal `1.7e308`, used as a test input. -/
def huge : Double :=
  nearest ((17 * 10 ^ 307 : Nat) : ℚ)

/-- The literal `0.1`, used as a test input. -/
def tenth : Double :=
  nearest (1 / 10)

end Float64

/-! ## Basic lemmas -/

theorem ok_bind {α β : Type} (a : α) (f : α → Except Failure β) :
    ((Except.ok a : Except Failure α) >>= f) = f a := rfl

theorem error_bind {α β : Type} (e : Failure) (f : α → Except Failure β) :
    ((Except.error e : Except Failure α) >>= f) = Except.error e := rfl

theorem sort_sorted (v : List ℚ) : (sort v).Sorted (· ≤ ·) :=
  List.sorted_insertionSort _ v

theorem sort_perm (v : List ℚ) : (sort v).Perm v :=
  List.perm_insertionSort _ v

theorem sort_length (v : List ℚ) : (sort v).length = v.length :=
  (sort_perm v).length_eq

theorem mem_sort {v : List ℚ} {x : ℚ} : x ∈ sort v ↔ x ∈ v :=
  (sort_perm v).mem_iff

theorem count_sort (v : List ℚ) (x : ℚ) : (sort v).count x = v.count x :=
  (sort_perm v).count_eq x

theorem isEmpty_eq_false {v : List ℚ} (hv : v ≠ []) : v.isEmpty = false := by
  cases v with
  | nil => exact absurd rfl hv
  | cons a t => rfl

theorem subscript_natCast (v : List ℚ) (i : Nat) (h : i < v.length) :
    subscript v (i : Int) = .ok (v[i]) := by
  unfold subscript
  simp [List.getElem?_eq_getElem h]

/-- The scan of `min` returns its start value or an element met, below both. -/
theorem foldl_min_spec (l : List ℚ) (m : ℚ) :
    (l.foldl (fun min x => if x < min then x else min) m = m ∨
      l.foldl (fun min x => if x < min then x else min) m ∈ l) ∧
    l.foldl (fun min x => if x < min then x else min) m ≤ m ∧
    ∀ x ∈ l, l.foldl (fun min x => if x < min then x else min) m ≤ x := by
  induction l generalizing m with
  | nil => simp
  | cons a t ih =>
    simp only [List.foldl_cons, List.mem_cons, forall_eq_or_imp]
    obtain ⟨h1, h2, h3⟩ := ih (if a < m then a else m)
    by_cases ham : a < m
    · simp only [ham, if_true] at h1 h2 h3 ⊢
      refine ⟨?_, le_trans h2 ham.le, h2, h3⟩
      rcases h1 with h1 | h1
      · exact Or.inr (Or.inl h1)
      · exact Or.inr (Or.inr h1)
    · simp only [ham, if_false] at h1 h2 h3 ⊢
      refine ⟨?_, h2, le_trans h2 (not_lt.mp ham), h3⟩
      rcases h1 with h1 | h1
      · exact Or.inl h1
      · exact Or.inr (Or.inr h1)

/-- The scan of `max` returns its start value or an element met, above both. -/
theorem foldl_max_spec (l : List ℚ) (m : ℚ) :
    (l.foldl (fun max x => if x > max then x else max) m = m ∨
      l.foldl (fun max x => if x > max then x else max) m ∈ l) ∧
    m ≤ l.foldl (fun max x => if x > max then x else max) m ∧
    ∀ x ∈ l, x ≤ l.foldl (fun max x => if x > max then x else max) m := by
  induction l generalizing m with
  | nil => simp
  | cons a t ih =>
    simp only [List.foldl_cons, List.mem_cons, forall_eq_or_imp]
    obtain ⟨h1, h2, h3⟩ := ih (if a > m then a else m)
    by_cases ham : a > m
    · simp only [ham, if_true] at h1 h2 h3 ⊢
      refine ⟨?_, le_trans (le_of_lt ham) h2, h2, h3⟩
      rcases h1 with h1 | h1
      · exact Or.inr (Or.inl h1)
      · exact Or.inr (Or.inr h1)
    · simp only [ham, if_false] at h1 h2 h3 ⊢
      refine ⟨?_, h2, le_trans (not_lt.mp ham) h2, h3⟩
      rcases h1 with h1 | h1
      · exact Or.inl h1
      · exact Or.inr (Or.inr h1)

theorem min_cons (a : ℚ) (t : List ℚ) :
    min (a :: t) = .ok ((a :: t).foldl (fun min x => if x < min then x else min) a) := by
  simp [min, subscript, ok_bind]

theorem max_cons (a : ℚ) (t : List ℚ) :
    max (a :: t) = .ok ((a :: t).foldl (fun max x => if x > max then x else max) a) := by
  simp [max, subscript, ok_bind]

/-- `min` returns an element of the dataset that is below every element. -/
theorem min_spec {v : List ℚ} (hv : v ≠ []) :
    ∃ lo, min v = .ok lo ∧ lo ∈ v ∧ ∀ x ∈ v, lo ≤ x := by
  cases v with
  | nil => exact absurd rfl hv
  | cons a t =>
    obtain ⟨h1, -, h3⟩ := foldl_min_spec (a :: t) a
    refine ⟨_, min_cons a t, ?_, h3⟩
    rcases h1 with h1 | h1
    · rw [h1]; exact List.mem_cons_self a t
    · exact h1

/-- `max` returns an element of the dataset that is above every element. -/
theorem max_spec {v : List ℚ} (hv : v ≠ []) :
    ∃ hi, max v = .ok hi ∧ hi ∈ v ∧ ∀ x ∈ v, x ≤ hi := by
  cases v with
  | nil => exact absurd rfl hv
  | cons a t =>
    obtain ⟨h1, -, h3⟩ := foldl_max_spec (a :: t) a
    refine ⟨_, max_cons a t, ?_, h3⟩
    rcases h1 with h1 | h1
    · rw [h1]; exact List.mem_cons_self a t
    · exact h1

theorem subscript_ofNat {v : List ℚ} {i : Int} {j : Nat} (hij : i = (j : Int))
    (h : j < v.length) : subscript v i = .ok (v[j]) := by
  subst hij
  exact subscript_natCast v j h

theorem modf_of_nonneg {n : ℚ} (hn : 0 ≤ n) : modf n = (n - (⌊n⌋ : Int), ⌊n⌋) := by
  simp [modf, hn]

/-- The rank computed by `percentile` lies between 1 and the size. -/
theorem rank_bounds (L : Nat) (p : ℚ) (hL : 1 ≤ L) (hp0 : 0 ≤ p) (hp1 : p ≤ 1) :
    1 ≤ p * ((L - 1 : Nat) : ℚ) + 1 ∧ p * ((L - 1 : Nat) : ℚ) + 1 ≤ (L : ℚ) := by
  have hc : ((L - 1 : Nat) : ℚ) = (L : ℚ) - 1 := by
    rw [Nat.cast_sub hL]; simp
  have hL1 : (0 : ℚ) ≤ (L : ℚ) - 1 := by
    have : (1 : ℚ) ≤ (L : ℚ) := by exact_mod_cast hL
    linarith
  rw [hc]
  constructor
  · nlinarith [mul_nonneg hp0 hL1]
  · nlinarith [mul_nonneg (sub_nonneg.mpr hp1) hL1]

/-- What `percentile` returns when the rank equals the size: the last element
of the sorted copy. -/
theorem percentile_of_rank_eq {v : List ℚ} {p : ℚ} (hv : v ≠ []) (hp0 : 0 ≤ p) (hp1 : p ≤ 1)
    (hn : p * (((sort v).length - 1 : Nat) : ℚ) + 1 = ((sort v).length : ℚ)) :
    ∃ h : (sort v).length - 1 < (sort v).length,
      percentile v p = .ok ((sort v)[(sort v).length - 1]) := by
  have hL : 1 ≤ (sort v).length := by
    rw [sort_length]; exact Nat.one_le_iff_ne_zero.mpr (fun h => hv (List.length_eq_zero.mp h))
  have hlt : (sort v).length - 1 < (sort v).length := by omega
  refine ⟨hlt, ?_⟩
  have hn0 : p * (((sort v).length - 1 : Nat) : ℚ) + 1 ≠ 0 := by
    have := (rank_bounds _ p hL hp0 hp1).1
    intro h; rw [h] at this; norm_num at this
  have hn0' : ((sort v).length : ℚ) ≠ 0 := by rw [← hn]; exact hn0
  unfold percentile
  simp only [isEmpty_eq_false hv, hp0, hp1, ge_iff_le, and_self, not_true_eq_false,
    if_false, hn0', hn, if_true, Bool.false_eq_true]
  exact subscript_natCast _ _ hlt

/-- What `percentile` returns when the rank is below the size: the
interpolation between two neighbours of the sorted copy, both in range. -/
theorem percentile_of_rank_ne {v : List ℚ} {p : ℚ} (hv : v ≠ []) (hp0 : 0 ≤ p) (hp1 : p ≤ 1)
    (hn : p * (((sort v).length - 1 : Nat) : ℚ) + 1 ≠ ((sort v).length : ℚ)) :
    ∃ K : Nat, ∃ h1 : K - 1 < (sort v).length, ∃ h2 : K < (sort v).length,
      ⌊p * (((sort v).length - 1 : Nat) : ℚ) + 1⌋ = (K : Int) ∧ 1 ≤ K ∧
      percentile v p = .ok ((sort v)[K - 1] +
        (p * (((sort v).length - 1 : Nat) : ℚ) + 1 - (K : ℚ)) * ((sort v)[K] - (sort v)[K - 1])) := by
  have hL : 1 ≤ (sort v).length := by
    rw [sort_length]; exact Nat.one_le_iff_ne_zero.mpr (fun h => hv (List.length_eq_zero.mp h))
  obtain ⟨hb1, hb2⟩ := rank_bounds _ p hL hp0 hp1
  set n : ℚ := p * (((sort v).length - 1 : Nat) : ℚ) + 1 with hndef
  have hn0 : n ≠ 0 := by intro h; rw [h] at hb1; norm_num at hb1
  have hnlt : n < ((sort v).length : ℚ) := lt_of_le_of_ne hb2 hn
  have hk1 : (1 : Int) ≤ ⌊n⌋ := Int.le_floor.mpr (by simpa using hb1)
  have hk2 : ⌊n⌋ < ((sort v).length : Int) := Int.floor_lt.mpr (by simpa using hnlt)
  obtain ⟨K, hK⟩ := Int.eq_ofNat_of_zero_le (le_trans (by norm_num) hk1)
  have hK1 : 1 ≤ K := by omega
  have hK2 : K < (sort v).length := by omega
  have hK3 : K - 1 < (sort v).length := by omega
  refine ⟨K, hK3, hK2, hK, hK1, ?_⟩
  have hsub1 : subscript (sort v) (⌊n⌋ - 1) = .ok ((sort v)[K - 1]) :=
    subscript_ofNat (by omega) hK3
  have hsub2 : subscript (sort v) ⌊n⌋ = .ok ((sort v)[K]) := subscript_ofNat hK hK2
  unfold percentile
  simp only [isEmpty_eq_false hv, hp0, hp1, ge_iff_le, and_self, not_true_eq_false,
    if_false, Bool.false_eq_true, ← hndef, hn0, hn, modf_of_nonneg (le_trans (by norm_num) hb1),
    hsub1, hsub2, ok_bind]
  rw [hK]
  rfl

theorem length_pos_of_ne_nil {v : List ℚ} (hv : v ≠ []) : 1 ≤ v.length :=
  Nat.one_le_iff_ne_zero.mpr (fun h => hv (List.length_eq_zero.mp h))

theorem sorted_getElem_mono {s : List ℚ} (hs : s.Sorted (· ≤ ·)) {i j : Nat} (hij : i ≤ j)
    (hj : j < s.length) : s[i] ≤ s[j] := by
  rcases Nat.eq_or_lt_of_le hij with h | h
  · subst h; exact le_rfl
  · exact (List.pairwise_iff_getElem.mp hs) i j (by omega) hj h

/-- The first element of the sorted copy is what `min` returns. -/
theorem min_eq_sort_head {v : List ℚ} (hv : v ≠ []) (h0 : 0 < (sort v).length) :
    min v = .ok ((sort v)[0]) := by
  obtain ⟨lo, hlo, hmem, hle⟩ := min_spec hv
  rw [hlo]
  congr 1
  apply le_antisymm
  · exact hle _ (mem_sort.mp (List.getElem_mem h0))
  · obtain ⟨i, hi, rfl⟩ := List.getElem_of_mem (mem_sort.mpr hmem)
    exact sorted_getElem_mono (sort_sorted v) (Nat.zero_le i) hi

/-- The last element of the sorted copy is what `max` returns. -/
theorem max_eq_sort_last {v : List ℚ} (hv : v ≠ [])
    (h0 : (sort v).length - 1 < (sort v).length) :
    max v = .ok ((sort v)[(sort v).length - 1]) := by
  obtain ⟨hi, hhi, hmem, hle⟩ := max_spec hv
  rw [hhi]
  congr 1
  apply le_antisymm
  · obtain ⟨i, hi, rfl⟩ := List.getElem_of_mem (mem_sort.mpr hmem)
    exact sorted_getElem_mono (sort_sorted v) (by omega) h0
  · exact hle _ (mem_sort.mp (List.getElem_mem h0))

/-- The rank formula in exact arithmetic: for a non-empty dataset `v` and
`0 ≤ p ≤ 1`, with `s` the sorted copy,
`n = p*(count-1)+1`, `k = floor n` and `d = n - k`, `percentile v p` returns `s[0]`
when `n = 1`, returns `s[count-1]` when `n = count`, and otherwise returns
`s[k-1] + d*(s[k] - s[k-1])`, the subscripts being in range. -/
theorem percentile_rank_formula (v : List ℚ) (p : ℚ) (hv : v ≠ []) (hp0 : 0 ≤ p) (hp1 : p ≤ 1)
    (n : ℚ) (k : Int) (d : ℚ) (hn : n = p * ((v.length : ℚ) - 1) + 1) (hk : k = ⌊n⌋)
    (hd : d = n - (k : ℚ)) :
    (n = 1 → ∃ x, (sort v)[0]? = some x ∧ percentile v p = .ok x) ∧
    (n = (v.length : ℚ) → ∃ x, (sort v)[v.length - 1]? = some x ∧ percentile v p = .ok x) ∧
    (n ≠ 1 → n ≠ (v.length : ℚ) → ∃ a b, (sort v)[(k - 1).toNat]? = some a ∧
      (sort v)[k.toNat]? = some b ∧ percentile v p = .ok (a + d * (b - a))) := by
  have hL : 1 ≤ (sort v).length := by rw [sort_length]; exact length_pos_of_ne_nil hv
  have hc : (((sort v).length - 1 : Nat) : ℚ) = (v.length : ℚ) - 1 := by
    rw [Nat.cast_sub hL, sort_length]; simp
  have hn' : p * (((sort v).length - 1 : Nat) : ℚ) + 1 = n := by rw [hc, hn]
  have hlen : ((sort v).length : ℚ) = (v.length : ℚ) := by rw [sort_length]
  -- the two ways the code can take
  have key : ∀ h : n ≠ (v.length : ℚ), ∃ a b, (sort v)[(k - 1).toNat]? = some a ∧
      (sort v)[k.toNat]? = some b ∧ percentile v p = .ok (a + d * (b - a)) := by
    intro h
    obtain ⟨K, h1, h2, hfl, hK1, hres⟩ :=
      percentile_of_rank_ne hv hp0 hp1 (by rw [hn', hlen]; exact h)
    rw [hn'] at hfl hres
    have hkK : k = (K : Int) := by rw [hk, hfl]
    refine ⟨(sort v)[K - 1], (sort v)[K], ?_, ?_, ?_⟩
    · have : (k - 1).toNat = K - 1 := by omega
      rw [this, List.getElem?_eq_getElem h1]
    · have : k.toNat = K := by omega
      rw [this, List.getElem?_eq_getElem h2]
    · rw [hres, hd, hkK]; simp
  refine ⟨?_, ?_, fun _ h => key h⟩
  · intro h1
    have h0 : 0 < (sort v).length := by omega
    refine ⟨(sort v)[0], List.getElem?_eq_getElem h0, ?_⟩
    by_cases hL1 : n = (v.length : ℚ)
    · obtain ⟨hlt, hres⟩ := percentile_of_rank_eq hv hp0 hp1 (by rw [hn', hlen]; exact hL1)
      have hone : (sort v).length = 1 := by
        have : ((sort v).length : ℚ) = 1 := by rw [hlen, ← hL1, h1]
        exact_mod_cast this
      rw [hres]
      congr 1
      simp [hone]
    · obtain ⟨K, h1', h2, hfl, hK1, hres⟩ :=
        percentile_of_rank_ne hv hp0 hp1 (by rw [hn', hlen]; exact hL1)
      rw [hn'] at hfl hres
      have hK : K = 1 := by
        rw [h1] at hfl
        have : (1 : Int) = (K : Int) := by simpa using hfl
        omega
      subst hK
      rw [hres, h1]
      simp
  · intro hL1
    obtain ⟨hlt, hres⟩ := percentile_of_rank_eq hv hp0 hp1 (by rw [hn', hlen]; exact hL1)
    refine ⟨(sort v)[(sort v).length - 1], ?_, hres⟩
    rw [← sort_length v, List.getElem?_eq_getElem hlt]

/-- The rank formula at the dataset of `test_percentile.cpp`: the rank of
`p = 0.05` is `1.65`,
so that the result interpolates between `s[0]` and `s[1]`; the values are
`percentile(v, 0.05) = 3.3` and `percentile(v, 0.5) = 14.5`. -/
theorem percentile_rank_formula_witness :
    (∃ a b, (sort [2, 6, 10, 12, 8, 4, 15, 19, 23, 35, 27, 32, 22, 14])[0]? = some a ∧
      (sort [2, 6, 10, 12, 8, 4, 15, 19, 23, 35, 27, 32, 22, 14])[1]? = some b ∧
      percentile [2, 6, 10, 12, 8, 4, 15, 19, 23, 35, 27, 32, 22, 14] (1 / 20)
        = .ok (a + 13 / 20 * (b - a))) ∧
    percentile [2, 6, 10, 12, 8, 4, 15, 19, 23, 35, 27, 32, 22, 14] (1 / 20) = .ok (33 / 10) ∧
    percentile [2, 6, 10, 12, 8, 4, 15, 19, 23, 35, 27, 32, 22, 14] (1 / 2) = .ok (29 / 2) :=
  ⟨(percentile_rank_formula [2, 6, 10, 12, 8, 4, 15, 19, 23, 35, 27, 32, 22, 14] (1 / 20)
      (by simp) (by norm_num) (by norm_num) (33 / 20) 1 (13 / 20) (by norm_num)
      (by rw [eq_comm, Int.floor_eq_iff]; norm_num) (by norm_num)).2.2
      (by norm_num) (by norm_num),
    by decide!, by decide!⟩

/-- In exact arithmetic, for a non-empty dataset, `percentile v 0` is what
`min v` returns and
`percentile v 1` is what `max v` returns. -/
theorem percentile_zero_one (v : List ℚ) (hv : v ≠ []) :
    ∃ lo hi, min v = .ok lo ∧ max v = .ok hi ∧
      percentile v 0 = .ok lo ∧ percentile v 1 = .ok hi := by
  have hL : 1 ≤ (sort v).length := by rw [sort_length]; exact length_pos_of_ne_nil hv
  have h0 : 0 < (sort v).length := by omega
  have hlast : (sort v).length - 1 < (sort v).length := by omega
  have hc : (((sort v).length - 1 : Nat) : ℚ) = ((sort v).length : ℚ) - 1 := by
    rw [Nat.cast_sub hL]; simp
  refine ⟨(sort v)[0], (sort v)[(sort v).length - 1], min_eq_sort_head hv h0,
    max_eq_sort_last hv hlast, ?_, ?_⟩
  · by_cases h : (0 : ℚ) * (((sort v).length - 1 : Nat) : ℚ) + 1 = ((sort v).length : ℚ)
    · obtain ⟨_, hres⟩ := percentile_of_rank_eq hv le_rfl zero_le_one h
      have hone : (sort v).length = 1 := by
        have : ((sort v).length : ℚ) = 1 := by rw [← h]; ring
        exact_mod_cast this
      rw [hres]
      congr 1
      simp [hone]
    · obtain ⟨K, h1, h2, hfl, hK1, hres⟩ := percentile_of_rank_ne hv le_rfl zero_le_one h
      have hK : K = 1 := by
        have : (1 : Int) = (K : Int) := by simpa using hfl
        omega
      subst hK
      rw [hres]
      simp
  · have h : (1 : ℚ) * (((sort v).length - 1 : Nat) : ℚ) + 1 = ((sort v).length : ℚ) := by
      rw [hc]; ring
    obtain ⟨_, hres⟩ := percentile_of_rank_eq hv zero_le_one le_rfl h
    exact hres

/-- The two ends at the dataset of `test_percentile.cpp`, where the values are 2
and 35. -/
theorem percentile_zero_one_witness :
    (∃ lo hi, min [2, 6, 10, 12, 8, 4, 15, 19, 23, 35, 27, 32, 22, 14] = .ok lo ∧
      max [2, 6, 10, 12, 8, 4, 15, 19, 23, 35, 27, 32, 22, 14] = .ok hi ∧
      percentile [2, 6, 10, 12, 8, 4, 15, 19, 23, 35, 27, 32, 22, 14] 0 = .ok lo ∧
      percentile [2, 6, 10, 12, 8, 4, 15, 19, 23, 35, 27, 32, 22, 14] 1 = .ok hi) ∧
    percentile [2, 6, 10, 12, 8, 4, 15, 19, 23, 35, 27, 32, 22, 14] 0 = .ok 2 ∧
    percentile [2, 6, 10, 12, 8, 4, 15, 19, 23, 35, 27, 32, 22, 14] 1 = .ok 35 :=
  ⟨percentile_zero_one [2, 6, 10, 12, 8, 4, 15, 19, 23, 35, 27, 32, 22, 14] (by simp),
    by decide!, by decide!⟩

theorem foldl_add_eq (f : ℚ → ℚ) (l : List ℚ) (a : ℚ) :
    l.foldl (fun acc x => acc + f x) a = a + (l.map f).sum := by
  induction l generalizing a with
  | nil => simp
  | cons b t ih => simp [List.foldl_cons, ih, add_assoc]

theorem sum_eq_ok {v : List ℚ} (hv : v ≠ []) : sum v = .ok v.sum := by
  have h := foldl_add_eq (fun x => x) v 0
  simp only [List.map_id', zero_add] at h
  simp [sum, isEmpty_eq_false hv, h]

theorem mean_eq_ok {v : List ℚ} (hv : v ≠ []) : mean v = .ok (v.sum / (v.length : ℚ)) := by
  have hlen : (v.length : ℚ) ≠ 0 := by
    have := length_pos_of_ne_nil hv
    exact_mod_cast (by omega : v.length ≠ 0)
  simp [mean, isEmpty_eq_false hv, sum_eq_ok hv, ok_bind, divide, hlen]

/-- C6: on a single-element dataset the assertion of `stdev` passes, since it
only tests that the dataset is not empty; the call then divides 0 by
`size - 1 = 0` and returns a NaN instead of failing. -/
theorem stdev_singleton_passes_assertion (x : ℚ) :
    stdev [x] = .error .nonFinite ∧ stdev [x] ≠ .error .assertion ∧
      stdev [] = .error .assertion := by
  have h : stdevTmp [x] = .error .nonFinite := by
    simp [stdevTmp, mean, sum, divide, ok_bind]
  refine ⟨?_, ?_, rfl⟩
  · simp only [stdev, h, error_bind]
  · simp only [stdev, h, error_bind]
    intro hcontra
    cases hcontra

/-! ## The empty dataset, `min`, `max` and `mean` -/

/-- C7: on the empty dataset `count` returns 0 and every other function fails
its assertion. -/
theorem empty_dataset_fails :
    count [] = 0 ∧ sum [] = .error .assertion ∧ mean [] = .error .assertion ∧
    min [] = .error .assertion ∧ max [] = .error .assertion ∧
    mode [] = .error .assertion ∧ median [] = .error .assertion ∧
    stdev [] = .error .assertion ∧ (∀ p : ℚ, percentile [] p = .error .assertion) ∧
    summarize [] = .error .assertion :=
  ⟨rfl, rfl, rfl, rfl, rfl, rfl, rfl, rfl, fun _ => rfl, rfl⟩

/-- C8: for a non-empty dataset, `min v` and `max v` are elements of `v` and
every element of `v` lies between them. -/
theorem min_max_bounds (v : List ℚ) (hv : v ≠ []) :
    ∃ lo hi, min v = .ok lo ∧ max v = .ok hi ∧ lo ∈ v ∧ hi ∈ v ∧
      ∀ x ∈ v, lo ≤ x ∧ x ≤ hi := by
  obtain ⟨lo, hlo, hlomem, hlole⟩ := min_spec hv
  obtain ⟨hi, hhi, hhimem, hhile⟩ := max_spec hv
  exact ⟨lo, hi, hlo, hhi, hlomem, hhimem, fun x hx => ⟨hlole x hx, hhile x hx⟩⟩

/-- C8 at the dataset of `test_min_max.cpp`: the extrema are 15.5 and 43.25. -/
theorem min_max_bounds_witness :
    (∃ lo hi, min [20, 16, 42, 173 / 4, 31 / 2, 35] = .ok lo ∧
      max [20, 16, 42, 173 / 4, 31 / 2, 35] = .ok hi ∧
      lo ∈ [20, 16, 42, 173 / 4, 31 / 2, 35] ∧ hi ∈ [20, 16, 42, 173 / 4, 31 / 2, 35] ∧
      ∀ x ∈ [20, 16, 42, 173 / 4, 31 / 2, 35], lo ≤ x ∧ x ≤ hi) ∧
    min [20, 16, 42, 173 / 4, 31 / 2, 35] = .ok (31 / 2) ∧
    max [20, 16, 42, 173 / 4, 31 / 2, 35] = .ok (173 / 4) :=
  ⟨min_max_bounds [20, 16, 42, 173 / 4, 31 / 2, 35] (by simp), by decide!, by decide!⟩

/-- C10: for a non-empty dataset, `mean v` is what `sum v` returns divided by
`count v`. -/
theorem mean_eq_sum_div_count (v : List ℚ) (hv : v ≠ []) :
    ∃ s, sum v = .ok s ∧ mean v = .ok (s / ((count v : Int) : ℚ)) := by
  refine ⟨v.sum, sum_eq_ok hv, ?_⟩
  rw [mean_eq_ok hv]
  simp [count]

/-- C10 at `{1,2,3}`: the mean is 2. -/
theorem mean_eq_sum_div_count_witness :
    (∃ s, sum [1, 2, 3] = .ok s ∧ mean [1, 2, 3] = .ok (s / ((count [1, 2, 3] : Int) : ℚ))) ∧
    mean [1, 2, 3] = .ok 2 :=
  ⟨mean_eq_sum_div_count [1, 2, 3] (by simp), by decide!⟩

/-! ## `mode` -/

theorem modeCountAt_zero (a : ℚ) (rest : List ℚ) :
    modeCountAt (a :: rest) 0 = modeInner a rest 0 := rfl

theorem modeCountAt_succ (a : ℚ) (rest : List ℚ) (j : Nat) :
    modeCountAt (a :: rest) (j + 1) = modeCountAt rest j := rfl

theorem modeCountAt_append (pre post : List ℚ) (x : ℚ) :
    modeCountAt (pre ++ x :: post) pre.length = modeInner x post 0 := by
  simp [modeCountAt]

/-- The outer loop of `mode` keeps the first index at which the inner count is
greatest, unless no count exceeds the one it starts with. -/
theorem modeLoop_spec (l : List ℚ) (i mi mc : Nat) :
    mc ≤ (modeLoop l i mi mc).2 ∧
    (∀ j, j < l.length → modeCountAt l j ≤ (modeLoop l i mi mc).2) ∧
    (modeLoop l i mi mc = (mi, mc) ∨
      ∃ j, j < l.length ∧ (modeLoop l i mi mc).1 = i + j ∧
        modeCountAt l j = (modeLoop l i mi mc).2 ∧ mc < (modeLoop l i mi mc).2 ∧
        ∀ j', j' < j → modeCountAt l j' < (modeLoop l i mi mc).2) := by
  induction l generalizing i mi mc with
  | nil => simp [modeLoop]
  | cons a rest ih =>
    by_cases hgt : modeInner a rest 0 > mc
    · have hstep : modeLoop (a :: rest) i mi mc = modeLoop rest (i + 1) i (modeInner a rest 0) := by
        simp [modeLoop, hgt]
      rw [hstep]
      obtain ⟨h1, h2, h3⟩ := ih (i + 1) i (modeInner a rest 0)
      refine ⟨by omega, ?_, Or.inr ?_⟩
      · intro j hj
        cases j with
        | zero => rw [modeCountAt_zero]; exact h1
        | succ j =>
          rw [modeCountAt_succ]
          exact h2 j (by simpa using hj)
      · rcases h3 with h3 | ⟨j, hj, hj1, hj2, hj3, hj4⟩
        · refine ⟨0, by simp, ?_, ?_, ?_, ?_⟩
          · rw [h3]; rfl
          · rw [h3, modeCountAt_zero]
          · rw [h3]; exact hgt
          · intro j' hj'; omega
        · refine ⟨j + 1, by simpa using hj, ?_, ?_, ?_, ?_⟩
          · rw [hj1]; omega
          · rw [modeCountAt_succ]; exact hj2
          · omega
          · intro j' hj'
            cases j' with
            | zero => rw [modeCountAt_zero]; exact hj3
            | succ j' =>
              rw [modeCountAt_succ]
              exact hj4 j' (by omega)
    · have hstep : modeLoop (a :: rest) i mi mc = modeLoop rest (i + 1) mi mc := by
        simp [modeLoop, hgt]
      rw [hstep]
      obtain ⟨h1, h2, h3⟩ := ih (i + 1) mi mc
      refine ⟨h1, ?_, ?_⟩
      · intro j hj
        cases j with
        | zero => rw [modeCountAt_zero]; omega
        | succ j =>
          rw [modeCountAt_succ]
          exact h2 j (by simpa using hj)
      · rcases h3 with h3 | ⟨j, hj, hj1, hj2, hj3, hj4⟩
        · exact Or.inl h3
        · refine Or.inr ⟨j + 1, by simpa using hj, ?_, ?_, hj3, ?_⟩
          · rw [hj1]; omega
          · rw [modeCountAt_succ]; exact hj2
          · intro j' hj'
            cases j' with
            | zero => rw [modeCountAt_zero]; omega
            | succ j' =>
              rw [modeCountAt_succ]
              exact hj4 j' (by omega)

/-- From the start state the outer loop of `mode` returns the first index at
which the inner count is greatest. -/
theorem modeLoop_first_max (l : List ℚ) (hl : l ≠ []) :
    (modeLoop l 0 0 0).1 < l.length ∧
    modeCountAt l (modeLoop l 0 0 0).1 = (modeLoop l 0 0 0).2 ∧
    (∀ j, j < l.length → modeCountAt l j ≤ (modeLoop l 0 0 0).2) ∧
    (∀ j, j < (modeLoop l 0 0 0).1 → modeCountAt l j < (modeLoop l 0 0 0).2) := by
  obtain ⟨-, h2, h3⟩ := modeLoop_spec l 0 0 0
  have hlen : 0 < l.length := length_pos_of_ne_nil hl
  rcases h3 with h3 | ⟨j, hj, hj1, hj2, -, hj4⟩
  · rw [h3] at h2 ⊢
    refine ⟨hlen, ?_, h2, ?_⟩
    · have := h2 0 hlen
      simp only at this ⊢
      omega
    · intro j hj
      simp only at hj
      omega
  · have hj1' : (modeLoop l 0 0 0).1 = j := by omega
    rw [hj1']
    exact ⟨hj, hj2, h2, hj4⟩

theorem modeInner_acc (x : ℚ) (l : List ℚ) (c : Nat) :
    modeInner x l c = c + modeInner x l 0 := by
  induction l generalizing c with
  | nil => simp [modeInner]
  | cons y rest ih =>
    by_cases h : x ≠ y
    · simp [modeInner, h]
    · have hstep : ∀ c, modeInner x (y :: rest) c = modeInner x rest (c + 1) := by
        intro c; simp only [modeInner, h, if_false]
      rw [hstep, hstep, ih (c + 1), ih (0 + 1)]
      omega

/-- On a sorted vector the inner loop of `mode` counts all later copies. -/
theorem modeInner_sorted (x : ℚ) (l : List ℚ) (hs : (x :: l).Sorted (· ≤ ·)) :
    modeInner x l 0 = l.count x := by
  induction l with
  | nil => simp [modeInner]
  | cons y rest ih =>
    have hxy : x ≤ y := List.rel_of_sorted_cons hs y (List.mem_cons_self y rest)
    have hs' : (y :: rest).Sorted (· ≤ ·) := hs.of_cons
    by_cases h : x = y
    · subst h
      have hstep : modeInner x (x :: rest) 0 = modeInner x rest (0 + 1) := by
        simp [modeInner]
      rw [hstep, modeInner_acc, ih hs']
      simp [List.count_cons_self]
      omega
    · have hlt : x < y := lt_of_le_of_ne hxy h
      have hnot : x ∉ y :: rest := by
        intro hmem
        rcases List.mem_cons.mp hmem with h1 | h1
        · exact h h1
        · have := List.rel_of_sorted_cons hs' x h1
          exact absurd (lt_of_lt_of_le hlt this) (lt_irrefl x)
      rw [List.count_eq_zero_of_not_mem hnot]
      simp [modeInner, h]

/-- On a sorted vector, the inner count at an index is below the number of
occurrences of the element there. -/
theorem modeCountAt_lt_count {s : List ℚ} (hs : s.Sorted (· ≤ ·)) {j : Nat}
    (hj : j < s.length) : modeCountAt s j + 1 ≤ s.count (s[j]) := by
  have hsplit : s = s.take j ++ s[j] :: s.drop (j + 1) := by
    rw [← List.drop_eq_getElem_cons hj, List.take_append_drop]
  have hsuf : (s[j] :: s.drop (j + 1)).Sorted (· ≤ ·) := by
    rw [← List.drop_eq_getElem_cons hj]
    exact hs.sublist (List.drop_sublist j s)
  have hcnt : modeCountAt s j = (s.drop (j + 1)).count (s[j]) := by
    unfold modeCountAt
    rw [List.drop_eq_getElem_cons hj]
    exact modeInner_sorted _ _ hsuf
  have hcount := congrArg (fun l => List.count (s[j]) l) hsplit
  simp only [List.count_append, List.count_cons_self] at hcount
  omega

/-- On a sorted vector, the inner count at the first occurrence of an element
is the number of its other occurrences. -/
theorem modeCountAt_first {pre post : List ℚ} {x : ℚ}
    (hs : (pre ++ x :: post).Sorted (· ≤ ·)) (hx : x ∉ pre) :
    modeCountAt (pre ++ x :: post) pre.length + 1 = (pre ++ x :: post).count x := by
  have hsuf : (x :: post).Sorted (· ≤ ·) :=
    hs.sublist (List.sublist_append_right pre (x :: post))
  rw [modeCountAt_append, modeInner_sorted x post hsuf, List.count_append,
    List.count_eq_zero_of_not_mem hx, List.count_cons_self]
  omega

/-- C4: for a non-empty dataset, `mode v` is an element of `v` whose number of
occurrences is greatest, and the smallest of the elements with that number of
occurrences. -/
theorem mode_smallest_most_frequent (v : List ℚ) (hv : v ≠ []) :
    ∃ m, mode v = .ok m ∧ m ∈ v ∧ (∀ x ∈ v, v.count x ≤ v.count m) ∧
      (∀ x ∈ v, v.count x = v.count m → m ≤ x) := by
  have hs := sort_sorted v
  have hne : sort v ≠ [] := by
    intro h
    have := sort_length v
    rw [h] at this
    exact hv (List.length_eq_zero.mp this.symm)
  obtain ⟨hlt, hat, hall, hfirst⟩ := modeLoop_first_max (sort v) hne
  have hmode : mode v = .ok ((sort v)[(modeLoop (sort v) 0 0 0).1]) := by
    simp only [mode, isEmpty_eq_false hv, Bool.false_eq_true, if_false]
    exact subscript_natCast _ _ hlt
  have hmcount := modeCountAt_lt_count hs hlt
  refine ⟨_, hmode, mem_sort.mp (List.getElem_mem hlt), ?_, ?_⟩
  · intro x hx
    obtain ⟨pre, post, hsplit, hnot⟩ := List.eq_append_cons_of_mem (mem_sort.mpr hx)
    have hs' := hs
    rw [hsplit] at hs'
    have h1 := modeCountAt_first hs' hnot
    rw [← hsplit] at h1
    have h2 := hall pre.length (by rw [hsplit]; simp)
    rw [← count_sort v x, ← count_sort v]
    omega
  · intro x hx heq
    obtain ⟨pre, post, hsplit, hnot⟩ := List.eq_append_cons_of_mem (mem_sort.mpr hx)
    have hs' := hs
    rw [hsplit] at hs'
    have h1 := modeCountAt_first hs' hnot
    rw [← hsplit] at h1
    have hpl : pre.length < (sort v).length := by rw [hsplit]; simp
    have h2 := hall pre.length hpl
    rw [← count_sort v x, ← count_sort v] at heq
    have hge : (modeLoop (sort v) 0 0 0).1 ≤ pre.length := by
      by_contra hcon
      have := hfirst pre.length (by omega)
      omega
    have hxe : (sort v)[pre.length] = x := List.getElem_of_append hsplit rfl
    rw [← hxe]
    exact sorted_getElem_mono hs hge hpl

/-- C4 at the examples of `stats.h`: `mode({1,2,3}) = 1`, `mode({2,2,1,1}) = 1`,
`mode({1,2,1,2}) = 1` and `mode({1,2,1,2,2}) = 2`. -/
theorem mode_smallest_most_frequent_witness :
    (∃ m, mode [1, 2, 1, 2, 2] = .ok m ∧ m ∈ [1, 2, 1, 2, 2] ∧
      (∀ x ∈ [1, 2, 1, 2, 2], ([1, 2, 1, 2, 2] : List ℚ).count x ≤ ([1, 2, 1, 2, 2] : List ℚ).count m) ∧
      (∀ x ∈ [1, 2, 1, 2, 2], ([1, 2, 1, 2, 2] : List ℚ).count x = ([1, 2, 1, 2, 2] : List ℚ).count m →
        m ≤ x)) ∧
    mode [1, 2, 3] = .ok 1 ∧ mode [2, 2, 1, 1] = .ok 1 ∧ mode [1, 2, 1, 2] = .ok 1 ∧
    mode [1, 2, 1, 2, 2] = .ok 2 :=
  ⟨mode_smallest_most_frequent [1, 2, 1, 2, 2] (by simp), by decide!, by decide!, by decide!,
    by decide!⟩

/-! ## `summarize` -/

theorem summarizeOutput_nil (value : ℚ) (count : Nat) (out : List (ℚ × Nat)) :
    summarizeOutput [] value count out = out ++ [(value, count)] := rfl

theorem summarizeOutput_cons_ne {x value : ℚ} (h : x ≠ value) (rest : List ℚ) (count : Nat)
    (out : List (ℚ × Nat)) :
    summarizeOutput (x :: rest) value count out
      = summarizeOutput rest x 1 (out ++ [(value, count)]) := by
  simp [summarizeOutput, summarizeLoop, h]

theorem summarizeOutput_cons_eq (value : ℚ) (rest : List ℚ) (count : Nat)
    (out : List (ℚ × Nat)) :
    summarizeOutput (value :: rest) value count out
      = summarizeOutput rest value (count + 1) out := by
  simp [summarizeOutput, summarizeLoop]

/-- The lines printed so far stay in front of the later ones. -/
theorem summarizeOutput_acc (rest : List ℚ) (value : ℚ) (count : Nat) (out : List (ℚ × Nat)) :
    summarizeOutput rest value count out = out ++ summarizeOutput rest value count [] := by
  induction rest generalizing value count out with
  | nil => simp [summarizeOutput_nil]
  | cons x rest ih =>
    by_cases h : x = value
    · subst h
      rw [summarizeOutput_cons_eq, summarizeOutput_cons_eq, ih]
    · rw [summarizeOutput_cons_ne h, summarizeOutput_cons_ne h, ih, ih x 1 ([] ++ [(value, count)])]
      simp

theorem summarize_eq_output {v : List ℚ} (hv : v ≠ []) {v0 : ℚ} {rest : List ℚ}
    (hs : sort v = v0 :: rest) : summarize v = .ok (summarizeOutput rest v0 1 []) := by
  simp only [summarize, isEmpty_eq_false hv, Bool.false_eq_true, if_false, hs]
  rfl

/-- The counts printed add up to the number of elements read. -/
theorem summarizeOutput_sum (rest : List ℚ) (value : ℚ) (count : Nat) :
    ((summarizeOutput rest value count []).map Prod.snd).sum = count + rest.length := by
  induction rest generalizing value count with
  | nil => simp [summarizeOutput_nil]
  | cons x rest ih =>
    by_cases h : x = value
    · subst h
      rw [summarizeOutput_cons_eq, ih]
      simp only [List.length_cons]
      omega
    · rw [summarizeOutput_cons_ne h, summarizeOutput_acc, List.map_append, List.sum_append, ih]
      simp only [List.nil_append, List.map_cons, List.map_nil, List.sum_cons, List.sum_nil,
        List.length_cons]
      omega

/-- On a sorted vector, the loop of `summarize` prints the current value with
all its occurrences, then the greater values, each once, in ascending order
and with its number of occurrences. -/
theorem summarizeOutput_sorted (rest : List ℚ) (value : ℚ) (count : Nat)
    (hs : (value :: rest).Sorted (· ≤ ·)) :
    ∃ tail, summarizeOutput rest value count [] = (value, count + rest.count value) :: tail ∧
      (∀ l ∈ tail, value < l.1 ∧ l.1 ∈ rest ∧ l.2 = rest.count l.1) ∧
      (tail.map Prod.fst).Sorted (· < ·) ∧
      (∀ x ∈ rest, x ≠ value → x ∈ tail.map Prod.fst) := by
  induction rest generalizing value count with
  | nil => exact ⟨[], by simp [summarizeOutput_nil], by simp, by simp, by simp⟩
  | cons x rest ih =>
    have hvx : value ≤ x := List.rel_of_sorted_cons hs x (List.mem_cons_self x rest)
    have hs' : (x :: rest).Sorted (· ≤ ·) := hs.of_cons
    by_cases h : x = value
    · subst h
      obtain ⟨tail, h1, h2, h3, h4⟩ := ih x (count + 1) hs'
      refine ⟨tail, ?_, ?_, h3, ?_⟩
      · rw [summarizeOutput_cons_eq, h1, List.count_cons_self]
        congr 2
        omega
      · intro l hl
        obtain ⟨ha, hb, hc⟩ := h2 l hl
        refine ⟨ha, List.mem_cons_of_mem _ hb, ?_⟩
        rw [hc, List.count_cons_of_ne (ne_of_gt ha)]
      · intro y hy hne
        rcases List.mem_cons.mp hy with hy | hy
        · exact absurd hy hne
        · exact h4 y hy hne
    · have hlt : value < x := lt_of_le_of_ne hvx (Ne.symm h)
      have hnot : value ∉ x :: rest := by
        intro hmem
        rcases List.mem_cons.mp hmem with h1 | h1
        · exact h h1.symm
        · have := List.rel_of_sorted_cons hs' value h1
          exact absurd (lt_of_lt_of_le hlt this) (lt_irrefl value)
      obtain ⟨tail, h1, h2, h3, h4⟩ := ih x 1 hs'
      refine ⟨(x, 1 + rest.count x) :: tail, ?_, ?_, ?_, ?_⟩
      · rw [summarizeOutput_cons_ne h, summarizeOutput_acc, h1,
          List.count_eq_zero_of_not_mem hnot]
        simp
      · intro l hl
        rcases List.mem_cons.mp hl with hl | hl
        · subst hl
          refine ⟨hlt, List.mem_cons_self _ _, ?_⟩
          simp only [List.count_cons_self]
          omega
        · obtain ⟨ha, hb, hc⟩ := h2 l hl
          refine ⟨lt_trans hlt ha, List.mem_cons_of_mem _ hb, ?_⟩
          rw [hc, List.count_cons_of_ne (ne_of_gt ha)]
      · simp only [List.map_cons]
        refine List.sorted_cons.mpr ⟨?_, h3⟩
        intro b hb
        obtain ⟨l, hl, rfl⟩ := List.mem_map.mp hb
        exact (h2 l hl).1
      · intro y hy _
        by_cases hyx : y = x
        · subst hyx; simp
        · rcases List.mem_cons.mp hy with hy | hy
          · exact absurd hy hyx
          · exact List.mem_cons_of_mem _ (h4 y hy hyx)

/-- C9: for a non-empty dataset, `summarize v` prints lines `(value, count)` whose
values are in strictly ascending order (so no value is printed twice), are
exactly the values of `v`, and carry the number of occurrences of the value
in `v`; the counts add up to `count v`. -/
theorem summarize_frequency_table (v : List ℚ) (hv : v ≠ []) :
    ∃ lines, summarize v = .ok lines ∧ (lines.map Prod.fst).Sorted (· < ·) ∧
      (∀ x, x ∈ lines.map Prod.fst ↔ x ∈ v) ∧ (∀ l ∈ lines, l.2 = v.count l.1) ∧
      (((lines.map Prod.snd).sum : Nat) : Int) = count v := by
  have hsorted := sort_sorted v
  cases hs : sort v with
  | nil =>
    have := sort_length v
    rw [hs] at this
    exact absurd (List.length_eq_zero.mp this.symm) hv
  | cons v0 rest =>
    rw [hs] at hsorted
    obtain ⟨tail, h1, h2, h3, h4⟩ := summarizeOutput_sorted rest v0 1 hsorted
    have hcount : ∀ x, v.count x = (v0 :: rest).count x := by
      intro x; rw [← hs, count_sort]
    have hmem : ∀ x, x ∈ v ↔ x ∈ v0 :: rest := by
      intro x; rw [← hs, mem_sort]
    refine ⟨summarizeOutput rest v0 1 [], summarize_eq_output hv hs, ?_, ?_, ?_, ?_⟩
    · rw [h1, List.map_cons]
      refine List.sorted_cons.mpr ⟨?_, h3⟩
      intro b hb
      obtain ⟨l, hl, rfl⟩ := List.mem_map.mp hb
      exact (h2 l hl).1
    · intro x
      rw [h1, List.map_cons, hmem]
      constructor
      · intro hx
        rcases List.mem_cons.mp hx with hx | hx
        · rw [hx]; exact List.mem_cons_self _ _
        · obtain ⟨l, hl, rfl⟩ := List.mem_map.mp hx
          exact List.mem_cons_of_mem _ (h2 l hl).2.1
      · intro hx
        by_cases hxv : x = v0
        · rw [hxv]; exact List.mem_cons_self _ _
        · rcases List.mem_cons.mp hx with hx | hx
          · exact absurd hx hxv
          · exact List.mem_cons_of_mem _ (h4 x hx hxv)
    · intro l hl
      rw [h1] at hl
      rw [hcount]
      rcases List.mem_cons.mp hl with hl | hl
      · subst hl
        simp only [List.count_cons_self]
        omega
      · obtain ⟨ha, -, hc⟩ := h2 l hl
        rw [hc, List.count_cons_of_ne (ne_of_gt ha)]
    · rw [summarizeOutput_sum]
      have hlen : v.length = (v0 :: rest).length := by rw [← hs, sort_length]
      simp only [count, hlen, List.length_cons]
      push_cast
      ring

/-- C9 at the example of `stats.h`: for `{2,1,2,17,1,2}` the lines are
`1: 2`, `2: 3`, `17: 1`. -/
theorem summarize_frequency_table_witness :
    (∃ lines, summarize [2, 1, 2, 17, 1, 2] = .ok lines ∧
      (lines.map Prod.fst).Sorted (· < ·) ∧
      (∀ x, x ∈ lines.map Prod.fst ↔ x ∈ [2, 1, 2, 17, 1, 2]) ∧
      (∀ l ∈ lines, l.2 = ([2, 1, 2, 17, 1, 2] : List ℚ).count l.1) ∧
      (((lines.map Prod.snd).sum : Nat) : Int) = count [2, 1, 2, 17, 1, 2]) ∧
    summarize [2, 1, 2, 17, 1, 2] = .ok [(1, 2), (2, 3), (17, 1)] :=
  ⟨summarize_frequency_table [2, 1, 2, 17, 1, 2] (by simp), by decide!⟩

/-! ## `sum`, `count` and `sort` -/

/-- C11: for a non-empty dataset, `sum v` is the sum of the elements accumulated
from 0 in the order of the dataset, and appending `x` adds `x` to it. -/
theorem sum_left_to_right (v : List ℚ) (x : ℚ) (hv : v ≠ []) :
    sum v = .ok (v.foldl (fun acc y => acc + y) 0) ∧ sum v = .ok v.sum ∧
      sum (v ++ [x]) = .ok (v.sum + x) := by
  have happ : v ++ [x] ≠ [] := by simp
  refine ⟨by simp [sum, isEmpty_eq_false hv], sum_eq_ok hv, ?_⟩
  rw [sum_eq_ok happ]
  simp

/-- C11 at `{1,2,3}`: the sum is 6, and 10 after appending 4. -/
theorem sum_left_to_right_witness :
    (sum [1, 2, 3] = .ok (([1, 2, 3] : List ℚ).foldl (fun acc y => acc + y) 0) ∧
      sum [1, 2, 3] = .ok ([1, 2, 3] : List ℚ).sum ∧
      sum ([1, 2, 3] ++ [4]) = .ok (([1, 2, 3] : List ℚ).sum + 4)) ∧
    sum [1, 2, 3] = .ok 6 :=
  ⟨sum_left_to_right [1, 2, 3] 4 (by simp), by decide!⟩

/-- C12: for every dataset, `count v` is the number of its elements; it is 0 on
the empty dataset and grows by 1 when an element is appended. -/
theorem count_eq_length (v : List ℚ) (x : ℚ) :
    count v = (v.length : Int) ∧ count [] = 0 ∧ count (v ++ [x]) = count v + 1 := by
  refine ⟨rfl, rfl, ?_⟩
  simp [count]

/-- C13: `sort v` is in ascending order, is a rearrangement of `v`, and sorting
it again changes nothing. -/
theorem sort_ascending_perm_idempotent (v : List ℚ) :
    (sort v).Sorted (· ≤ ·) ∧ (∀ x, (sort v).count x = v.count x) ∧ (sort v).Perm v ∧
      sort (sort v) = sort v :=
  ⟨sort_sorted v, count_sort v, sort_perm v, List.Sorted.insertionSort_eq (sort_sorted v)⟩

/-- Two arrangements of the same elements have the same sorted copy. -/
theorem sort_eq_of_perm {v w : List ℚ} (h : w.Perm v) : sort w = sort v :=
  List.eq_of_perm_of_sorted ((sort_perm w).trans (h.trans (sort_perm v).symm))
    (sort_sorted w) (sort_sorted v)

theorem isEmpty_eq_of_perm {v w : List ℚ} (h : w.Perm v) : w.isEmpty = v.isEmpty := by
  cases v with
  | nil => rw [List.Perm.eq_nil h]
  | cons a t =>
    have hw : w ≠ [] := by
      intro hnil
      rw [hnil] at h
      exact absurd (List.Perm.nil_eq h) (by simp)
    rw [isEmpty_eq_false hw]
    rfl

theorem min_eq_of_perm {v w : List ℚ} (h : w.Perm v) : min w = min v := by
  cases v with
  | nil => rw [List.Perm.eq_nil h]
  | cons a t =>
    have hv : a :: t ≠ [] := by simp
    have hw : w ≠ [] := by
      intro hnil
      rw [hnil] at h
      exact absurd (List.Perm.nil_eq h) (by simp)
    have h0 : 0 < (sort (a :: t)).length := by
      rw [sort_length]; exact length_pos_of_ne_nil hv
    have h0' : 0 < (sort w).length := by
      rw [sort_length]; exact length_pos_of_ne_nil hw
    rw [min_eq_sort_head hv h0, min_eq_sort_head hw h0']
    congr 1
    simp only [sort_eq_of_perm h]

theorem max_eq_of_perm {v w : List ℚ} (h : w.Perm v) : max w = max v := by
  cases v with
  | nil => rw [List.Perm.eq_nil h]
  | cons a t =>
    have hv : a :: t ≠ [] := by simp
    have hw : w ≠ [] := by
      intro hnil
      rw [hnil] at h
      exact absurd (List.Perm.nil_eq h) (by simp)
    have h0 : (sort (a :: t)).length - 1 < (sort (a :: t)).length := by
      have := length_pos_of_ne_nil hv
      rw [sort_length]; omega
    have h0' : (sort w).length - 1 < (sort w).length := by
      have := length_pos_of_ne_nil hw
      rw [sort_length]; omega
    rw [max_eq_sort_last hv h0, max_eq_sort_last hw h0']
    congr 1
    simp only [sort_eq_of_perm h]

theorem percentile_eq_of_perm {v w : List ℚ} (h : w.Perm v) (p : ℚ) :
    percentile w p = percentile v p := by
  unfold percentile
  rw [isEmpty_eq_of_perm h, sort_eq_of_perm h]

theorem mode_eq_of_perm {v w : List ℚ} (h : w.Perm v) : mode w = mode v := by
  unfold mode
  rw [isEmpty_eq_of_perm h, sort_eq_of_perm h]

theorem median_eq_of_perm {v w : List ℚ} (h : w.Perm v) : median w = median v := by
  unfold median
  rw [isEmpty_eq_of_perm h, percentile_eq_of_perm h]

/-- C14: for a non-empty dataset `v`, `min` and `max` return the same on the
sorted copy as on `v`, and `min`, `max`, `mode`, `median` and `percentile . p`
(for `0 ≤ p ≤ 1`) return the same on every rearrangement `w` of `v`; what they
return is a value, not a failure. -/
theorem statistics_order_independent (v w : List ℚ) (p : ℚ) (hv : v ≠ []) (hw : w.Perm v)
    (hp0 : 0 ≤ p) (hp1 : p ≤ 1) :
    min (sort v) = min v ∧ max (sort v) = max v ∧
    (∃ a, min w = .ok a ∧ min v = .ok a) ∧ (∃ a, max w = .ok a ∧ max v = .ok a) ∧
    (∃ a, mode w = .ok a ∧ mode v = .ok a) ∧ (∃ a, median w = .ok a ∧ median v = .ok a) ∧
    (∃ a, percentile w p = .ok a ∧ percentile v p = .ok a) := by
  have hperc : ∀ q : ℚ, 0 ≤ q → q ≤ 1 → ∃ a, percentile v q = .ok a := by
    intro q hq0 hq1
    by_cases hn : q * (((sort v).length - 1 : Nat) : ℚ) + 1 = ((sort v).length : ℚ)
    · obtain ⟨_, hres⟩ := percentile_of_rank_eq hv hq0 hq1 hn
      exact ⟨_, hres⟩
    · obtain ⟨K, _, _, _, _, hres⟩ := percentile_of_rank_ne hv hq0 hq1 hn
      exact ⟨_, hres⟩
  refine ⟨min_eq_of_perm (sort_perm v), max_eq_of_perm (sort_perm v), ?_, ?_, ?_, ?_, ?_⟩
  · obtain ⟨a, ha, -⟩ := min_spec hv
    exact ⟨a, by rw [min_eq_of_perm hw, ha], ha⟩
  · obtain ⟨a, ha, -⟩ := max_spec hv
    exact ⟨a, by rw [max_eq_of_perm hw, ha], ha⟩
  · have hlt : (modeLoop (sort v) 0 0 0).1 < (sort v).length := by
      refine (modeLoop_first_max (sort v) ?_).1
      intro h
      have := sort_length v
      rw [h] at this
      exact hv (List.length_eq_zero.mp this.symm)
    have ha : mode v = .ok ((sort v)[(modeLoop (sort v) 0 0 0).1]) := by
      simp only [mode, isEmpty_eq_false hv, Bool.false_eq_true, if_false]
      exact subscript_natCast _ _ hlt
    exact ⟨_, by rw [mode_eq_of_perm hw, ha], ha⟩
  · obtain ⟨a, ha⟩ := hperc (1 / 2) (by norm_num) (by norm_num)
    have hmed : median v = .ok a := by
      simp only [median, isEmpty_eq_false hv, Bool.false_eq_true, if_false, ha]
    exact ⟨a, by rw [median_eq_of_perm hw, hmed], hmed⟩
  · obtain ⟨a, ha⟩ := hperc p hp0 hp1
    exact ⟨a, by rw [percentile_eq_of_perm hw, ha], ha⟩

/-- C14 at the dataset of `test_min_max.cpp`, sorted and in reverse order. -/
theorem statistics_order_independent_witness :
    (min (sort [20, 16, 42, 173 / 4, 31 / 2, 35]) = min [20, 16, 42, 173 / 4, 31 / 2, 35] ∧
      max (sort [20, 16, 42, 173 / 4, 31 / 2, 35]) = max [20, 16, 42, 173 / 4, 31 / 2, 35] ∧
      (∃ a, min [35, 31 / 2, 173 / 4, 42, 16, 20] = .ok a ∧
        min [20, 16, 42, 173 / 4, 31 / 2, 35] = .ok a) ∧
      (∃ a, max [35, 31 / 2, 173 / 4, 42, 16, 20] = .ok a ∧
        max [20, 16, 42, 173 / 4, 31 / 2, 35] = .ok a) ∧
      (∃ a, mode [35, 31 / 2, 173 / 4, 42, 16, 20] = .ok a ∧
        mode [20, 16, 42, 173 / 4, 31 / 2, 35] = .ok a) ∧
      (∃ a, median [35, 31 / 2, 173 / 4, 42, 16, 20] = .ok a ∧
        median [20, 16, 42, 173 / 4, 31 / 2, 35] = .ok a) ∧
      (∃ a, percentile [35, 31 / 2, 173 / 4, 42, 16, 20] (1 / 4) = .ok a ∧
        percentile [20, 16, 42, 173 / 4, 31 / 2, 35] (1 / 4) = .ok a)) ∧
    min (sort [20, 16, 42, 173 / 4, 31 / 2, 35]) = .ok (31 / 2) ∧
    max (sort [20, 16, 42, 173 / 4, 31 / 2, 35]) = .ok (173 / 4) :=
  ⟨statistics_order_independent [20, 16, 42, 173 / 4, 31 / 2, 35]
      [35, 31 / 2, 173 / 4, 42, 16, 20] (1 / 4) (by simp)
      (List.reverse_perm [20, 16, 42, 173 / 4, 31 / 2, 35]) (by norm_num) (by norm_num),
    by decide!, by decide!⟩

/-! ## Safety and monotonicity of `percentile` -/

/-- For a non-empty dataset and `0 ≤ p ≤ 1`, `percentile` returns a value. -/
theorem percentile_ok {v : List ℚ} {p : ℚ} (hv : v ≠ []) (hp0 : 0 ≤ p) (hp1 : p ≤ 1) :
    ∃ a, percentile v p = .ok a := by
  by_cases hn : p * (((sort v).length - 1 : Nat) : ℚ) + 1 = ((sort v).length : ℚ)
  · obtain ⟨_, hres⟩ := percentile_of_rank_eq hv hp0 hp1 hn
    exact ⟨_, hres⟩
  · obtain ⟨K, _, _, _, _, hres⟩ := percentile_of_rank_ne hv hp0 hp1 hn
    exact ⟨_, hres⟩

/-- C18: `percentile v p` fails exactly when `v` is empty or `p` is outside
`[0,1]`.  For non-empty `v` and `0 ≤ p ≤ 1` the rank `n` lies in `[1, |v|]`, and
when `n ≠ |v|` the subscripts `k-1` and `k`, with `k = floor n`, lie in
`0 .. |v|-1` and both reads of the sorted copy succeed. -/
theorem percentile_fails_iff (v : List ℚ) (p : ℚ) :
    ((∃ e, percentile v p = .error e) ↔ (v = [] ∨ ¬ (0 ≤ p ∧ p ≤ 1))) ∧
    (v ≠ [] → 0 ≤ p → p ≤ 1 →
      1 ≤ p * ((v.length : ℚ) - 1) + 1 ∧ p * ((v.length : ℚ) - 1) + 1 ≤ (v.length : ℚ) ∧
      (p * ((v.length : ℚ) - 1) + 1 ≠ (v.length : ℚ) →
        0 ≤ ⌊p * ((v.length : ℚ) - 1) + 1⌋ - 1 ∧
        ⌊p * ((v.length : ℚ) - 1) + 1⌋ ≤ (v.length : Int) - 1 ∧
        (∃ a, subscript (sort v) (⌊p * ((v.length : ℚ) - 1) + 1⌋ - 1) = .ok a) ∧
        (∃ b, subscript (sort v) ⌊p * ((v.length : ℚ) - 1) + 1⌋ = .ok b))) := by
  constructor
  · constructor
    · rintro ⟨e, he⟩
      by_contra hcon
      rw [not_or, not_not] at hcon
      obtain ⟨a, ha⟩ := percentile_ok hcon.1 hcon.2.1 hcon.2.2
      rw [ha] at he
      cases he
    · rintro (h | h)
      · exact ⟨.assertion, by rw [h]; rfl⟩
      · refine ⟨.assertion, ?_⟩
        unfold percentile
        by_cases hv : v.isEmpty = true
        · simp [hv]
        · simp only [hv, ge_iff_le, h, not_false_eq_true, if_true, if_false, Bool.false_eq_true]
  · intro hv hp0 hp1
    have hL : 1 ≤ (sort v).length := by rw [sort_length]; exact length_pos_of_ne_nil hv
    have hc : (((sort v).length - 1 : Nat) : ℚ) = (v.length : ℚ) - 1 := by
      rw [Nat.cast_sub hL, sort_length]; simp
    have hlen : ((sort v).length : ℚ) = (v.length : ℚ) := by rw [sort_length]
    obtain ⟨hb1, hb2⟩ := rank_bounds _ p hL hp0 hp1
    rw [hc] at hb1
    rw [hc, hlen] at hb2
    refine ⟨hb1, hb2, ?_⟩
    intro hne
    obtain ⟨K, h1, h2, hfl, hK1, -⟩ :=
      percentile_of_rank_ne hv hp0 hp1 (by rw [hc, hlen]; exact hne)
    rw [hc] at hfl
    rw [hfl]
    have hslen := sort_length v
    refine ⟨by omega, by omega, ⟨_, subscript_ofNat (j := K - 1) (by omega) h1⟩,
      ⟨_, subscript_ofNat rfl h2⟩⟩

/-- C18 at a single-element dataset: the rank is 1, equal to the size, and the
call returns the element. -/
theorem percentile_fails_iff_witness :
    (1 ≤ (1 / 2 : ℚ) * ((([7] : List ℚ).length : ℚ) - 1) + 1 ∧
      (1 / 2 : ℚ) * ((([7] : List ℚ).length : ℚ) - 1) + 1 ≤ (([7] : List ℚ).length : ℚ)) ∧
    percentile [7] (1 / 2) = .ok 7 ∧ percentile [7] 2 = .error .assertion ∧
    percentile [7] (-1) = .error .assertion :=
  ⟨⟨((percentile_fails_iff [7] (1 / 2)).2 (by simp) (by norm_num) (by norm_num)).1,
      ((percentile_fails_iff [7] (1 / 2)).2 (by simp) (by norm_num) (by norm_num)).2.1⟩,
    by decide!, by decide!, by decide!⟩

/-- What `mode` returns, in terms of the sorted copy: the smallest of its most
frequent elements. -/
theorem mode_sorted_facts {v : List ℚ} (hv : v ≠ []) :
    ∃ m, mode v = .ok m ∧ m ∈ sort v ∧
      (∀ x ∈ sort v, (sort v).count x ≤ (sort v).count m) ∧
      (∀ x ∈ sort v, (sort v).count m ≤ (sort v).count x → m ≤ x) := by
  have hs := sort_sorted v
  have hne : sort v ≠ [] := by
    intro h
    have := sort_length v
    rw [h] at this
    exact hv (List.length_eq_zero.mp this.symm)
  obtain ⟨hlt, hat, hall, hfirst⟩ := modeLoop_first_max (sort v) hne
  have hmode : mode v = .ok ((sort v)[(modeLoop (sort v) 0 0 0).1]) := by
    simp only [mode, isEmpty_eq_false hv, Bool.false_eq_true, if_false]
    exact subscript_natCast _ _ hlt
  have hmcount := modeCountAt_lt_count hs hlt
  have hfacts : ∀ x ∈ sort v, ∃ j, ∃ hj : j < (sort v).length, (sort v)[j] = x ∧
      modeCountAt (sort v) j + 1 = (sort v).count x := by
    intro x hx
    obtain ⟨pre, post, hsplit, hnot⟩ := List.eq_append_cons_of_mem hx
    have hs' := hs
    rw [hsplit] at hs'
    have h1 := modeCountAt_first hs' hnot
    rw [← hsplit] at h1
    exact ⟨pre.length, by rw [hsplit]; simp, List.getElem_of_append hsplit rfl, h1⟩
  refine ⟨_, hmode, List.getElem_mem hlt, ?_, ?_⟩
  · intro x hx
    obtain ⟨j, hj, -, hcnt⟩ := hfacts x hx
    have := hall j hj
    omega
  · intro x hx hle
    obtain ⟨j, hj, hjx, hcnt⟩ := hfacts x hx
    have hge : (modeLoop (sort v) 0 0 0).1 ≤ j := by
      by_contra hcon
      have := hfirst j (by omega)
      omega
    rw [← hjx]
    exact sorted_getElem_mono hs hge hj

/-- What `summarize` prints, in terms of the sorted copy. -/
theorem summarize_sorted_facts {v : List ℚ} (hv : v ≠ []) :
    ∃ lines, summarize v = .ok lines ∧ (lines.map Prod.fst).Sorted (· < ·) ∧
      (∀ x ∈ sort v, x ∈ lines.map Prod.fst) ∧
      (∀ l ∈ lines, l.1 ∈ sort v ∧ l.2 = (sort v).count l.1) := by
  have hsorted := sort_sorted v
  cases hs : sort v with
  | nil =>
    have := sort_length v
    rw [hs] at this
    exact absurd (List.length_eq_zero.mp this.symm) hv
  | cons v0 rest =>
    rw [hs] at hsorted
    obtain ⟨tail, h1, h2, h3, h4⟩ := summarizeOutput_sorted rest v0 1 hsorted
    refine ⟨(v0, 1 + rest.count v0) :: tail, ?_, ?_, ?_, ?_⟩
    · rw [← h1]; exact summarize_eq_output hv hs
    · rw [List.map_cons]
      refine List.sorted_cons.mpr ⟨?_, h3⟩
      intro b hb
      obtain ⟨l, hl, rfl⟩ := List.mem_map.mp hb
      exact (h2 l hl).1
    · intro x hx
      rw [List.map_cons]
      by_cases hxv : x = v0
      · rw [hxv]; exact List.mem_cons_self _ _
      · rcases List.mem_cons.mp hx with hx | hx
        · exact absurd hx hxv
        · exact List.mem_cons_of_mem _ (h4 x hx hxv)
    · intro l hl
      rcases List.mem_cons.mp hl with hl | hl
      · subst hl
        refine ⟨List.mem_cons_self _ _, ?_⟩
        simp only [List.count_cons_self]
        omega
      · obtain ⟨ha, hb, hc⟩ := h2 l hl
        refine ⟨List.mem_cons_of_mem _ hb, ?_⟩
        rw [hc, List.count_cons_of_ne (ne_of_gt ha)]

/-- C20: for a non-empty dataset, `mode v` is the value of the first line printed
by `summarize v` whose count is the greatest count printed: the lines before it
have a smaller count and no line has a greater one. -/
theorem mode_agrees_with_summarize (v : List ℚ) (hv : v ≠ []) :
    ∃ lines m c pre post, summarize v = .ok lines ∧ mode v = .ok m ∧
      lines = pre ++ (m, c) :: post ∧ (∀ l ∈ lines, l.2 ≤ c) ∧ (∀ l ∈ pre, l.2 < c) := by
  obtain ⟨m, hm, hmem, hmax, hmin⟩ := mode_sorted_facts hv
  obtain ⟨lines, hl, hsorted, hcover, hcount⟩ := summarize_sorted_facts hv
  obtain ⟨l0, hl0, hl0m⟩ := List.mem_map.mp (hcover m hmem)
  obtain ⟨pre, post, hsplit⟩ := List.append_of_mem hl0
  have hc0 : l0.2 = (sort v).count m := by rw [(hcount l0 hl0).2, hl0m]
  have hl0eq : l0 = (m, l0.2) := by rw [← hl0m]
  refine ⟨lines, m, l0.2, pre, post, hl, hm, by rw [← hl0eq]; exact hsplit, ?_, ?_⟩
  · intro l hlmem
    obtain ⟨h1, h2⟩ := hcount l hlmem
    rw [h2, hc0]
    exact hmax _ h1
  · intro l hlpre
    have hlmem : l ∈ lines := by rw [hsplit]; exact List.mem_append_left _ hlpre
    obtain ⟨h1, h2⟩ := hcount l hlmem
    have hlt : l.1 < m := by
      rw [hsplit, List.map_append, List.map_cons] at hsorted
      have := (List.pairwise_append.mp hsorted).2.2 l.1 (List.mem_map_of_mem _ hlpre) l0.1
        (List.mem_cons_self _ _)
      rw [hl0m] at this
      exact this
    have hle := hmax _ h1
    rw [h2, hc0]
    by_contra hcon
    have := hmin _ h1 (by omega)
    exact absurd (lt_of_lt_of_le hlt this) (lt_irrefl _)

/-- C20 at `{1,2,1,2,2}` and `{1,2,1,2}`: the tables are `1: 2`, `2: 3` and
`1: 2`, `2: 2`, and the modes are 2 and 1. -/
theorem mode_agrees_with_summarize_witness :
    (∃ lines m c pre post, summarize [1, 2, 1, 2, 2] = .ok lines ∧
      mode [1, 2, 1, 2, 2] = .ok m ∧ lines = pre ++ (m, c) :: post ∧
      (∀ l ∈ lines, l.2 ≤ c) ∧ (∀ l ∈ pre, l.2 < c)) ∧
    summarize [1, 2, 1, 2, 2] = .ok [(1, 2), (2, 3)] ∧ mode [1, 2, 1, 2, 2] = .ok 2 ∧
    summarize [1, 2, 1, 2] = .ok [(1, 2), (2, 2)] ∧ mode [1, 2, 1, 2] = .ok 1 :=
  ⟨mode_agrees_with_summarize [1, 2, 1, 2, 2] (by simp), by decide!, by decide!, by decide!,
    by decide!⟩

/-! ## `extract_column` -/

/-- A read `iss >> token` depends on `token` only when it fails, and then it
returns it untouched. -/
theorem extractString_token (iss : IStringStream) (token : List Char) :
    ((extractString iss []).1 = true →
      extractString iss token = (true, (extractString iss []).2.1, (extractString iss []).2.2)) ∧
    ((extractString iss []).1 = false →
      (extractString iss token).1 = false ∧ (extractString iss token).2.1 = token) := by
  unfold extractString
  cases hg : iss.good with
  | false => simp
  | true =>
    cases hd : iss.buf.dropWhile isspace with
    | nil => simp
    | cons c rest => simp

/-- A successful read `iss >> token` shortens the stream. -/
theorem extractString_shorter (iss : IStringStream) (token : List Char)
    (h : (extractString iss token).1 = true) :
    (extractString iss token).2.2.buf.length < iss.buf.length := by
  unfold extractString at h ⊢
  cases hg : iss.good with
  | false => simp [hg] at h
  | true =>
    cases hd : iss.buf.dropWhile isspace with
    | nil => simp [hg, hd] at h
    | cons c rest =>
      simp only [hg, hd, if_true]
      have h1 : (c :: rest).length ≤ iss.buf.length := by
        rw [← hd]; exact (List.dropWhile_sublist _).length_le
      have hc : isspace c = false := by
        have := List.head_dropWhile_not isspace iss.buf (by rw [hd]; simp)
        simpa [hd] using this
      have h2 : ((c :: rest).dropWhile (fun x => !isspace x)).length ≤ rest.length := by
        rw [List.dropWhile_cons_of_pos (by simp [hc])]
        exact (List.dropWhile_sublist _).length_le
      simp only [List.length_cons] at h1
      omega

/-- A read `getline(iss, token, delim)` depends on `token` only when the stream
is not good, and then it returns it untouched. -/
theorem getline_token (iss : IStringStream) (token : List Char) (delim : Char) :
    ((getline iss [] delim).1 = true →
      getline iss token delim
        = (true, (getline iss [] delim).2.1, (getline iss [] delim).2.2)) ∧
    ((getline iss [] delim).1 = false → (getline iss token delim).1 = false) := by
  unfold getline
  cases hg : iss.good with
  | false => simp
  | true =>
    cases hd : iss.buf.dropWhile (fun x => x != delim) with
    | nil => simp
    | cons c rest => simp

/-- A successful read `getline(iss, token, delim)` shortens the stream. -/
theorem getline_shorter (iss : IStringStream) (token : List Char) (delim : Char)
    (h : (getline iss token delim).1 = true) :
    (getline iss token delim).2.2.buf.length < iss.buf.length := by
  unfold getline at h ⊢
  cases hg : iss.good with
  | false => simp [hg] at h
  | true =>
    cases hd : iss.buf.dropWhile (fun x => x != delim) with
    | nil =>
      simp only [hg, hd, if_true] at h ⊢
      cases hb : iss.buf with
      | nil => simp [hb] at h
      | cons c rest => simp
    | cons c rest =>
      simp only [hg, hd, if_true]
      have h1 : (c :: rest).length ≤ iss.buf.length := by
        rw [← hd]; exact (List.dropWhile_sublist _).length_le
      simp only [List.length_cons] at h1
      omega

theorem headerLoop_succ (column_name : List Char) (fuel : Nat) (iss : IStringStream)
    (token : List Char) (column_index : Nat) :
    headerLoop column_name (fuel + 1) iss token column_index =
      if (extractString iss token).1 = true then
        if (extractString iss token).2.1 = column_name then
          ((extractString iss token).2.1, column_index)
        else headerLoop column_name fuel (extractString iss token).2.2
          (extractString iss token).2.1 (column_index + 1)
      else ((extractString iss token).2.1, column_index) := by
  rcases h : extractString iss token with ⟨ok, tok, iss2⟩
  cases ok <;> simp [headerLoop, h]

theorem headerTokens_succ (fuel : Nat) (iss : IStringStream) :
    headerTokens (fuel + 1) iss =
      if (extractString iss []).1 = true then
        (extractString iss []).2.1 :: headerTokens fuel (extractString iss []).2.2
      else [] := by
  rcases h : extractString iss [] with ⟨ok, tok, iss2⟩
  cases ok <;> simp [headerTokens, h]

theorem rowLoop_succ (column_index fuel : Nat) (iss : IStringStream) (token : List Char)
    (i : Nat) :
    rowLoop column_index (fuel + 1) iss token i =
      if (getline iss token '\t').1 = true then
        if i = column_index then (i, (getline iss token '\t').2.1)
        else rowLoop column_index fuel (getline iss token '\t').2.2
          (getline iss token '\t').2.1 (i + 1)
      else (i, (getline iss token '\t').2.1) := by
  rcases h : getline iss token '\t' with ⟨ok, tok, iss2⟩
  cases ok <;> simp [rowLoop, h]

theorem rowTokens_succ (fuel : Nat) (iss : IStringStream) :
    rowTokens (fuel + 1) iss =
      if (getline iss [] '\t').1 = true then
        (getline iss [] '\t').2.1 :: rowTokens fuel (getline iss [] '\t').2.2
      else [] := by
  rcases h : getline iss [] '\t' with ⟨ok, tok, iss2⟩
  cases ok <;> simp [rowTokens, h]

/-- The search of the header stops at the first token equal to `column_name`,
with its position; without such a token it ends with the last token read, or
with the string it started with when there is no token. -/
theorem headerLoop_spec (column_name : List Char) (fuel : Nat) (iss : IStringStream)
    (token : List Char) (column_index : Nat) :
    (column_name ∈ headerTokens fuel iss →
      ∃ pre post, headerTokens fuel iss = pre ++ column_name :: post ∧ column_name ∉ pre ∧
        headerLoop column_name fuel iss token column_index
          = (column_name, column_index + pre.length)) ∧
    (column_name ∉ headerTokens fuel iss →
      (headerLoop column_name fuel iss token column_index).2
          = column_index + (headerTokens fuel iss).length ∧
        (((headerLoop column_name fuel iss token column_index).1 = token ∧
            headerTokens fuel iss = []) ∨
          (headerLoop column_name fuel iss token column_index).1 ∈ headerTokens fuel iss)) := by
  induction fuel generalizing iss token column_index with
  | zero => simp [headerLoop, headerTokens]
  | succ fuel ih =>
    rw [headerLoop_succ, headerTokens_succ]
    obtain ⟨hs, hf⟩ := extractString_token iss token
    cases hok : (extractString iss []).1 with
    | false =>
      obtain ⟨h1, h2⟩ := hf hok
      simp [h1, h2]
    | true =>
      rw [hs hok]
      simp only [if_true]
      obtain ⟨ih1, ih2⟩ := ih (extractString iss []).2.2 (extractString iss []).2.1
        (column_index + 1)
      by_cases heq : (extractString iss []).2.1 = column_name
      · simp only [heq, if_true]
        constructor
        · intro _
          exact ⟨[], _, rfl, by simp, rfl⟩
        · intro h
          exact absurd (List.mem_cons_self _ _) h
      · simp only [heq, if_false]
        constructor
        · intro h
          have hmem : column_name ∈ headerTokens fuel (extractString iss []).2.2 := by
            rcases List.mem_cons.mp h with h | h
            · exact absurd h.symm heq
            · exact h
          obtain ⟨pre, post, hsplit, hnot, hres⟩ := ih1 hmem
          refine ⟨(extractString iss []).2.1 :: pre, post, by rw [hsplit]; rfl, ?_, ?_⟩
          · intro hm
            rcases List.mem_cons.mp hm with hm | hm
            · exact heq hm.symm
            · exact hnot hm
          · rw [hres, List.length_cons]
            congr 1
            omega
        · intro h
          have hmem : column_name ∉ headerTokens fuel (extractString iss []).2.2 :=
            fun hm => h (List.mem_cons_of_mem _ hm)
          obtain ⟨h1, h2⟩ := ih2 hmem
          refine ⟨by rw [h1, List.length_cons]; omega, Or.inr ?_⟩
          rcases h2 with ⟨h2, h3⟩ | h2
          · rw [h2]; exact List.mem_cons_self _ _
          · exact List.mem_cons_of_mem _ h2

/-- The bound of the header loop is never reached: any greater bound gives the
same tokens and the same result. -/
theorem headerLoop_fuel (column_name : List Char) (fuel fuel2 : Nat) (iss : IStringStream)
    (token : List Char) (column_index : Nat) (h1 : iss.buf.length < fuel)
    (h2 : iss.buf.length < fuel2) :
    headerLoop column_name fuel iss token column_index
        = headerLoop column_name fuel2 iss token column_index ∧
      headerTokens fuel iss = headerTokens fuel2 iss := by
  induction fuel generalizing fuel2 iss token column_index with
  | zero => omega
  | succ fuel ih =>
    cases fuel2 with
    | zero => omega
    | succ fuel2 =>
      rw [headerLoop_succ, headerLoop_succ, headerTokens_succ, headerTokens_succ]
      constructor
      · cases hok : (extractString iss token).1 with
        | false => simp
        | true =>
          have hlt := extractString_shorter iss token hok
          simp only [if_true]
          by_cases heq : (extractString iss token).2.1 = column_name
          · simp [heq]
          · simp only [heq, if_false]
            exact (ih fuel2 _ _ _ (by omega) (by omega)).1
      · cases hok : (extractString iss []).1 with
        | false => simp
        | true =>
          have hlt := extractString_shorter iss [] hok
          simp only [if_true]
          rw [(ih fuel2 (extractString iss []).2.2 [] 0 (by omega) (by omega)).2]

/-- The loop over the tokens of a row ends with `i = column_index` as soon as
the row has `column_index` tokens, whether or not there is one more. -/
theorem rowLoop_spec (column_index fuel : Nat) (iss : IStringStream) (token : List Char)
    (i : Nat) (hi : i ≤ column_index) :
    (i + (rowTokens fuel iss).length < column_index →
      (rowLoop column_index fuel iss token i).1 = i + (rowTokens fuel iss).length) ∧
    (column_index ≤ i + (rowTokens fuel iss).length →
      (rowLoop column_index fuel iss token i).1 = column_index) := by
  induction fuel generalizing iss token i with
  | zero =>
    constructor
    · intro _
      simp [rowLoop, rowTokens]
    · intro h
      simp only [rowLoop, rowTokens, List.length_nil, Nat.add_zero] at h ⊢
      omega
  | succ fuel ih =>
    rw [rowLoop_succ, rowTokens_succ]
    obtain ⟨hs, hf⟩ := getline_token iss token '\t'
    cases hok : (getline iss [] '\t').1 with
    | false =>
      constructor
      · intro _
        simp [hf hok]
      · intro h
        simp only [hf hok, Bool.false_eq_true, if_false, List.length_nil, Nat.add_zero] at h ⊢
        omega
    | true =>
      rw [hs hok]
      simp only [if_true, List.length_cons]
      by_cases hic : i = column_index
      · subst hic
        simp only [if_true]
        exact ⟨fun h => by omega, fun _ => trivial⟩
      · simp only [hic, if_false]
        obtain ⟨ih1, ih2⟩ := ih (getline iss [] '\t').2.2 (getline iss [] '\t').2.1 (i + 1)
          (by omega)
        constructor
        · intro h
          rw [ih1 (by omega)]
          omega
        · intro h
          exact ih2 (by omega)

/-- The bound of the row loop is never reached: any greater bound gives the
same tokens and the same result. -/
theorem rowLoop_fuel (column_index fuel fuel2 : Nat) (iss : IStringStream)
    (token : List Char) (i : Nat) (h1 : iss.buf.length < fuel) (h2 : iss.buf.length < fuel2) :
    rowLoop column_index fuel iss token i = rowLoop column_index fuel2 iss token i ∧
      rowTokens fuel iss = rowTokens fuel2 iss := by
  induction fuel generalizing fuel2 iss token i with
  | zero => omega
  | succ fuel ih =>
    cases fuel2 with
    | zero => omega
    | succ fuel2 =>
      rw [rowLoop_succ, rowLoop_succ, rowTokens_succ, rowTokens_succ]
      constructor
      · cases hok : (getline iss token '\t').1 with
        | false => simp
        | true =>
          have hlt := getline_shorter iss token '\t' hok
          simp only [if_true]
          by_cases hic : i = column_index
          · simp [hic]
          · simp only [hic, if_false]
            exact (ih fuel2 _ _ _ (by omega) (by omega)).1
      · cases hok : (getline iss [] '\t').1 with
        | false => simp
        | true =>
          have hlt := getline_shorter iss [] '\t' hok
          simp only [if_true]
          rw [(ih fuel2 (getline iss [] '\t').2.2 [] 0 (by omega) (by omega)).2]

/-- C15: a data row with fewer than `column_index` tokens is skipped with a
warning, but a row with exactly `column_index` tokens, which has no token at
that index either, adds an element and prints no warning.  With the header
`a<TAB>b`, the column `b` and the row `7`, the value of column `a` is returned
as an element of column `b`. -/
theorem extract_column_short_row (toDouble : List Char → ℚ) :
    extract_column toDouble (some [['a', '\t', 'b'], ['7']]) ['b']
      = .returned [toDouble ['7']] [] ∧
    extract_column toDouble (some [['a', '\t', 'b', '\t', 'c'], ['7']]) ['c']
      = .returned [] [2] ∧
    ∀ (column_index : Nat) (line : List Char) (rest : List (List Char)) (column_data : List ℚ)
      (warnings : List Nat) (line_no : Nat),
      ((rowTokens (line.length + 1) ⟨line, true⟩).length < column_index →
        dataLoop toDouble column_index (line :: rest) column_data warnings line_no
          = dataLoop toDouble column_index rest column_data (warnings ++ [line_no])
              (line_no + 1)) ∧
      (column_index ≤ (rowTokens (line.length + 1) ⟨line, true⟩).length →
        ∃ x, dataLoop toDouble column_index (line :: rest) column_data warnings line_no
          = dataLoop toDouble column_index rest (column_data ++ [x]) warnings (line_no + 1)) := by
  refine ⟨rfl, rfl, ?_⟩
  intro column_index line rest column_data warnings line_no
  obtain ⟨h1, h2⟩ := rowLoop_spec column_index (line.length + 1) ⟨line, true⟩ [] 0
    (Nat.zero_le _)
  simp only [Nat.zero_add] at h1 h2
  constructor
  · intro h
    have hne : (rowLoop column_index (line.length + 1) ⟨line, true⟩ [] 0).1 ≠ column_index := by
      rw [h1 h]; omega
    simp only [dataLoop, hne, if_false]
  · intro h
    refine ⟨toDouble (rowLoop column_index (line.length + 1) ⟨line, true⟩ [] 0).2, ?_⟩
    simp only [dataLoop, h2 h, if_true]

/-- C16: when `column_name` is none of the tokens of the header, `extract_column`
exits with the column-not-found diagnostic, except when the header has no
token and `column_name` is empty: then the test `token != column_name`
compares two empty strings and the call goes on with column 0.  When
`column_name` is a token of the header, the column used is the position of its
first occurrence. -/
theorem extract_column_header_search (toDouble : List Char → ℚ) (line column_name : List Char)
    (rows : List (List Char)) :
    extract_column toDouble (some [[], ['4', '\t', '5']]) [] = .returned [toDouble ['4']] [] ∧
    (column_name ∉ headerTokens (line.length + 1) ⟨line, true⟩ →
      headerTokens (line.length + 1) ⟨line, true⟩ = [] → column_name = [] →
      extract_column toDouble (some (line :: rows)) column_name
        = .returned (dataLoop toDouble 0 rows [] [] 2).1 (dataLoop toDouble 0 rows [] [] 2).2) ∧
    (column_name ∉ headerTokens (line.length + 1) ⟨line, true⟩ →
      (headerTokens (line.length + 1) ⟨line, true⟩ ≠ [] ∨ column_name ≠ []) →
      extract_column toDouble (some (line :: rows)) column_name = .exited .columnNotFound) ∧
    (column_name ∈ headerTokens (line.length + 1) ⟨line, true⟩ →
      ∃ pre post, headerTokens (line.length + 1) ⟨line, true⟩ = pre ++ column_name :: post ∧
        column_name ∉ pre ∧
        extract_column toDouble (some (line :: rows)) column_name
          = .returned (dataLoop toDouble pre.length rows [] [] 2).1
              (dataLoop toDouble pre.length rows [] [] 2).2) := by
  obtain ⟨hin, hout⟩ := headerLoop_spec column_name (line.length + 1) ⟨line, true⟩ [] 0
  refine ⟨rfl, ?_, ?_, ?_⟩
  · intro hnot hnil hname
    obtain ⟨h1, h2⟩ := hout hnot
    have htok : (headerLoop column_name (line.length + 1) ⟨line, true⟩ [] 0).1 = column_name := by
      rcases h2 with ⟨h2, -⟩ | h2
      · rw [h2, hname]
      · rw [hnil] at h2
        exact absurd h2 (List.not_mem_nil _)
    rw [hnil] at h1
    simp only [extract_column, htok, ne_eq, not_true_eq_false, if_false, h1, Nat.zero_add,
      List.length_nil]
  · intro hnot hcase
    obtain ⟨-, h2⟩ := hout hnot
    have htok : (headerLoop column_name (line.length + 1) ⟨line, true⟩ [] 0).1 ≠ column_name := by
      rcases h2 with ⟨h2, h3⟩ | h2
      · rw [h2]
        rcases hcase with hcase | hcase
        · exact absurd h3 hcase
        · exact fun h => hcase h.symm
      · intro h
        rw [h] at h2
        exact hnot h2
    simp only [extract_column, htok, ne_eq, not_false_eq_true, if_true]
  · intro hmem
    obtain ⟨pre, post, hsplit, hpre, hres⟩ := hin hmem
    refine ⟨pre, post, hsplit, hpre, ?_⟩
    simp only [extract_column, hres, ne_eq, not_true_eq_false, if_false, Nat.zero_add]

/-! ## The vector of the caller -/

theorem assign_same (σ : Store) (a : Nat) (x : List ℚ) : assign σ a x a = x := by
  simp [assign]

theorem assign_other (σ : Store) {a b : Nat} (x : List ℚ) (h : b ≠ a) :
    assign σ a x b = σ b := by
  simp [assign, h]

theorem summarizeOn_fst (σ : Store) (v : Nat) : (summarizeOn σ v).1 = summarize (σ v) := by
  unfold summarizeOn summarize
  cases hv : (σ v).isEmpty with
  | true => simp
  | false =>
    simp only [Bool.false_eq_true, if_false, sortRef, assign_same]
    cases hs : sort (σ v) with
    | nil => rfl
    | cons v0 rest => rfl

theorem modeOn_fst (σ : Store) (v : Nat) : (modeOn σ v).1 = mode (σ v) := by
  unfold modeOn mode
  cases hv : (σ v).isEmpty with
  | true => simp
  | false => simp only [Bool.false_eq_true, if_false, sortRef, assign_same]

theorem percentileOn_fst (σ : Store) (v : Nat) (p : ℚ) :
    (percentileOn σ v p).1 = percentile (σ v) p := by
  unfold percentileOn percentile
  cases hv : (σ v).isEmpty with
  | true => simp
  | false =>
    simp only [Bool.false_eq_true, if_false, sortRef, assign_same]
    split_ifs <;> rfl

/-- The bodies that sort do so in place, on their parameter object only. -/
theorem sortingBodies_frame (σ : Store) (v a : Nat) (p : ℚ) (h : a ≠ v) :
    (summarizeOn σ v).2 a = σ a ∧ (modeOn σ v).2 a = σ a ∧ (percentileOn σ v p).2 a = σ a := by
  refine ⟨?_, ?_, ?_⟩
  · unfold summarizeOn
    cases hv : (σ v).isEmpty with
    | true => simp
    | false =>
      simp only [Bool.false_eq_true, if_false]
      split <;> simp [sortRef, assign_other _ _ h]
  · unfold modeOn
    cases hv : (σ v).isEmpty with
    | true => simp
    | false => simp [sortRef, assign_other _ _ h]
  · unfold percentileOn
    cases hv : (σ v).isEmpty with
    | true => simp
    | false =>
      simp only [Bool.false_eq_true, if_false]
      split_ifs <;> simp [sortRef, assign_other _ _ h]

/-- C17: a call of a statistics function, whose parameter object `v` is a copy
of the argument object `a`, returns what the function returns on the contents
of `a` and leaves `a` as it was, although `summarize`, `mode`, `percentile` and
`median` sort in place: what they sort is the copy.  The function `sort`, which
takes a reference, does change its argument. -/
theorem caller_dataset_unchanged (σ : Store) (a v w : Nat) (p : ℚ) (hv : v ≠ a) (hw : w ≠ a) :
    ((summarizeOn (copyConstruct σ a v) v).1 = summarize (σ a) ∧
      (summarizeOn (copyConstruct σ a v) v).2 a = σ a) ∧
    ((modeOn (copyConstruct σ a v) v).1 = mode (σ a) ∧
      (modeOn (copyConstruct σ a v) v).2 a = σ a) ∧
    ((percentileOn (copyConstruct σ a v) v p).1 = percentile (σ a) p ∧
      (percentileOn (copyConstruct σ a v) v p).2 a = σ a) ∧
    ((medianOn (copyConstruct σ a v) v w).1 = median (σ a) ∧
      (medianOn (copyConstruct σ a v) v w).2 a = σ a) ∧
    ((readOnlyOn count (copyConstruct σ a v) v).1 = count (σ a) ∧
      (readOnlyOn count (copyConstruct σ a v) v).2 a = σ a) ∧
    ((readOnlyOn sum (copyConstruct σ a v) v).1 = sum (σ a) ∧
      (readOnlyOn sum (copyConstruct σ a v) v).2 a = σ a) ∧
    ((readOnlyOn mean (copyConstruct σ a v) v).1 = mean (σ a) ∧
      (readOnlyOn mean (copyConstruct σ a v) v).2 a = σ a) ∧
    ((readOnlyOn min (copyConstruct σ a v) v).1 = min (σ a) ∧
      (readOnlyOn min (copyConstruct σ a v) v).2 a = σ a) ∧
    ((readOnlyOn max (copyConstruct σ a v) v).1 = max (σ a) ∧
      (readOnlyOn max (copyConstruct σ a v) v).2 a = σ a) ∧
    ((readOnlyOn stdev (copyConstruct σ a v) v).1 = stdev (σ a) ∧
      (readOnlyOn stdev (copyConstruct σ a v) v).2 a = σ a) ∧
    (σ a ≠ [] → (summarizeOn (copyConstruct σ a v) v).2 v = sort (σ a)) ∧
    (sortRef σ a) a = sort (σ a) := by
  have hcopy : (copyConstruct σ a v) v = σ a := assign_same _ _ _
  have hkeep : (copyConstruct σ a v) a = σ a := assign_other _ _ (Ne.symm hv)
  obtain ⟨f1, f2, f3⟩ := sortingBodies_frame (copyConstruct σ a v) v a p (Ne.symm hv)
  refine ⟨⟨?_, ?_⟩, ⟨?_, ?_⟩, ⟨?_, ?_⟩, ⟨?_, ?_⟩, ⟨?_, hkeep⟩, ⟨?_, hkeep⟩, ⟨?_, hkeep⟩,
    ⟨?_, hkeep⟩, ⟨?_, hkeep⟩, ⟨?_, hkeep⟩, ?_, assign_same _ _ _⟩
  · rw [summarizeOn_fst, hcopy]
  · rw [f1, hkeep]
  · rw [modeOn_fst, hcopy]
  · rw [f2, hkeep]
  · rw [percentileOn_fst, hcopy]
  · rw [f3, hkeep]
  · unfold medianOn median
    rw [hcopy]
    cases he : (σ a).isEmpty with
    | true => simp
    | false =>
      simp only [Bool.false_eq_true, if_false]
      rw [percentileOn_fst, copyConstruct, assign_same, hcopy]
  · unfold medianOn
    rw [hcopy]
    cases he : (σ a).isEmpty with
    | true => simpa using hkeep
    | false =>
      simp only [Bool.false_eq_true, if_false]
      rw [(sortingBodies_frame _ w a (1 / 2) (Ne.symm hw)).2.2, copyConstruct,
        assign_other _ _ (Ne.symm hw)]
      exact hkeep
  · simp only [readOnlyOn, hcopy]
  · simp only [readOnlyOn, hcopy]
  · simp only [readOnlyOn, hcopy]
  · simp only [readOnlyOn, hcopy]
  · simp only [readOnlyOn, hcopy]
  · simp only [readOnlyOn, hcopy]
  · intro hne
    unfold summarizeOn
    rw [hcopy]
    simp only [isEmpty_eq_false hne, Bool.false_eq_true, if_false]
    split <;> simp [sortRef, assign_same, hcopy]

/-- C17 at the vector `{2,1,2}` held by the object 0, with the parameter objects
1 and 2: after `summarize`, `mode` and `median` the object 0 still holds
`{2,1,2}`, the copy holds `{1,2,2}`, and `sort` on the object 0 leaves
`{1,2,2}` in it. -/
theorem caller_dataset_unchanged_witness :
    ((summarizeOn (copyConstruct (fun _ => [2, 1, 2]) 0 1) 1).1 = summarize [2, 1, 2] ∧
      (summarizeOn (copyConstruct (fun _ => [2, 1, 2]) 0 1) 1).2 0 = [2, 1, 2]) ∧
    (modeOn (copyConstruct (fun _ => [2, 1, 2]) 0 1) 1).2 0 = [2, 1, 2] ∧
    (medianOn (copyConstruct (fun _ => [2, 1, 2]) 0 1) 1 2).2 0 = [2, 1, 2] ∧
    (summarizeOn (copyConstruct (fun _ => [2, 1, 2]) 0 1) 1).2 1 = [1, 2, 2] ∧
    sortRef (fun _ => [2, 1, 2]) 0 0 = [1, 2, 2] :=
  ⟨(caller_dataset_unchanged (fun _ => [2, 1, 2]) 0 1 2 (1 / 4) (by decide) (by decide)).1,
    by decide!, by decide!, by decide!, by decide!⟩

/-! ## `stdev` of equal elements -/

namespace Float64

set_option maxRecDepth 100000

/-- The arithmetic at known values: `0.1` is `3602879701896397 / 2^55`,
`0.1 + 0.2` is `0.30000000000000004`, the root of 2 is
`6369051672525773 / 2^52`, the root of 4 is 2, `1.8e308` overflows, half the
smallest positive `double` rounds to 0 and three quarters of it round up. -/
theorem arithmetic_at_known_values :
    tenth = .finite (3602879701896397 / 2 ^ 55) ∧
    add tenth (nearest (2 / 10)) = .finite (5404319552844596 / 2 ^ 54) ∧
    sqrt (.finite 2) = .finite (6369051672525773 / 2 ^ 52) ∧
    sqrt (.finite 4) = .finite 2 ∧
    nearest ((18 * 10 ^ 307 : Nat) : ℚ) = .posInf ∧
    nearest (pow2 (-1075)) = .finite 0 ∧
    nearest (3 * pow2 (-1076)) = .finite (pow2 (-1074)) ∧
    mul (.finite 0) .posInf = .nan ∧ add .posInf .negInf = .nan ∧
    div (.finite 0) (.finite 0) = .nan := by
  decide!

/-- C1: on the dataset `{-1.7e308, 1.7e308}` with `p = 0` the code does not return
`s[0]` although the rank is 1.  The rank is `n = 0 * 1 + 1 = 1`; the guard tests
`n == 0`, not `n == 1`, and `n` is not the size 2, so the code interpolates:
`s[1] - s[0]` overflows to an infinity, `0 * inf` is a NaN, and the call
returns NaN, while `s[0]` is the finite number `-1.7e308`. -/
theorem percentile_rank_one_overflow :
    add (mul (.finite 0) (ofSize ([neg huge, huge].length - 1))) (.finite 1) = .finite 1 ∧
    (sort [neg huge, huge])[0]? = some (neg huge) ∧
    (sort [neg huge, huge])[1]? = some huge ∧
    lt .negInf (neg huge) = true ∧ lt huge .posInf = true ∧
    sub huge (neg huge) = .posInf ∧
    percentile [neg huge, huge] (.finite 0) = .ok .nan := by
  decide!

/-- C2: on the dataset `{-1.7e308, 1.7e308}` the call `percentile(v, 0)` returns
NaN while `min(v)` returns the finite number `-1.7e308`, by the guard `n == 0`
that lets the rank 1 go to the interpolation; `percentile(v, 1)` and `max(v)`
both return `1.7e308`. -/
theorem percentile_zero_not_min :
    percentile [neg huge, huge] (.finite 0) = .ok .nan ∧
    min [neg huge, huge] = .ok (neg huge) ∧
    lt .negInf (neg huge) = true ∧
    percentile [neg huge, huge] (.finite 1) = .ok huge ∧
    max [neg huge, huge] = .ok huge := by
  decide!

end Float64

end Stats
